import Mathlib

/-!
Verification of the Excel-comparison core (`compare_excel.py`, with the call
protocol of `app.py` / `main`) against its specification.

Shallow embedding conventions:
* A normalized cell is `Option String` (`none` = pandas `NA`); normalization
  guarantees present values are stripped and non-empty.
* A row is an association list column-name ↦ cell; a table is a column list
  plus a row list.
* Python `str.strip()` is modelled by `strip` below (drop leading and trailing
  whitespace), written by structural recursion so that it evaluates.
* pandas `Index.difference` returns a sorted, deduplicated index (its default
  `sort=None` attempts to sort); `Index.intersection` (default `sort=False`)
  keeps the calling (left) index's order and deduplicates.  `DataFrame.compare`
  with `keep_equal=False` keeps only rows and columns containing at least one
  difference and masks equal cells to `NA`.
-/

namespace ExcelCompare

abbrev Cell := Option String

abbrev Row := List (String × Cell)

/-- Python `str.strip()` on the character list of a string. -/
def stripChars (l : List Char) : List Char :=
  ((l.dropWhile Char.isWhitespace).reverse.dropWhile Char.isWhitespace).reverse

/-- Python `str.strip()`. -/
def strip (s : String) : String := ⟨stripChars s.data⟩

/-- `row[c]` / `row.get(c)`: the cell stored for column `c` (missing if the
column is absent from the row). -/
def getCell (r : Row) (c : String) : Cell := (r.lookup c).join

/-- A normalized table: unique column names, each row listing its cells. -/
structure Table where
  cols : List String
  rows : List Row
deriving Repr, DecidableEq

/-- `{column, old_value, new_value}` as produced by both diff engines. -/
structure FieldChange where
  column : String
  old_value : Cell
  new_value : Cell
deriving Repr, DecidableEq

/-- Keyed-mode modified row `{id, changes}`
(`_changed_df_to_modified_rows`). -/
structure ModRecord where
  id : String
  changes : List FieldChange
deriving Repr, DecidableEq

/-- Positional-mode modified row `{row_index, changes}`
(`compare_excels_by_position`). -/
structure PosRecord where
  row_index : Nat
  changes : List FieldChange
deriving Repr, DecidableEq

/-- Normalization invariant established by `load_excel`: every present cell is
stripped and non-empty (empty strings were replaced by `NA`). -/
def NormCell (v : Cell) : Prop := ∀ s, v = some s → strip s = s ∧ s ≠ ""

instance (v : Cell) : Decidable (NormCell v) :=
  match v with
  | none => isTrue (fun _ h => nomatch h)
  | some s =>
    decidable_of_iff (strip s = s ∧ s ≠ "")
      ⟨fun h _ ht => (Option.some.inj ht) ▸ h, fun h => h s rfl⟩

/-- A table as produced by `load_excel`: unique (pandas) column labels and
normalized cells. -/
def NormTable (t : Table) : Prop :=
  t.cols.Nodup ∧ ∀ r ∈ t.rows, ∀ p ∈ r, NormCell p.2

instance (t : Table) : Decidable (NormTable t) := by
  unfold NormTable; infer_instance

/-! ### Schema reconciliation (`compare_excels` lines 70–76,
`compare_excels_by_position` lines 118–122) -/

/-- Insertion of an element into a list sorted by the boolean order `le`. -/
def insertLe (le : α → α → Bool) (a : α) : List α → List α
  | [] => [a]
  | b :: l => if le a b then a :: b :: l else b :: insertLe le a l

/-- Insertion sort by the boolean order `le`; models Python `sorted` and
pandas' index sorting. -/
def sortLe (le : α → α → Bool) : List α → List α
  | [] => []
  | a :: l => insertLe le a (sortLe le l)

/-- Lexicographic code-point comparison of character lists. -/
def charsLe : List Char → List Char → Bool
  | [], _ => true
  | _ :: _, [] => false
  | a :: as, b :: bs =>
    a.toNat < b.toNat || (a.toNat == b.toNat && charsLe as bs)

/-- `≤` on strings as Python compares them: lexicographically by Unicode code
point. -/
def strLe (a b : String) : Bool := charsLe a.data b.data

/-- Python `sorted` on a list of strings. -/
def sortStrings (l : List String) : List String := sortLe strLe l

/-- `sorted(set(df1.columns) - set(df2.columns))`. -/
def onlyIn1 (t1 t2 : Table) : List String :=
  sortStrings ((t1.cols.dedup).filter (fun c => ¬ t2.cols.contains c))

/-- `sorted(set(df2.columns) - set(df1.columns))`. -/
def onlyIn2 (t1 t2 : Table) : List String :=
  sortStrings ((t2.cols.dedup).filter (fun c => ¬ t1.cols.contains c))

/-- `sorted(set(df1.columns) & set(df2.columns))`. -/
def commonCols (t1 t2 : Table) : List String :=
  sortStrings ((t1.cols.dedup).filter (fun c => t2.cols.contains c))

/-- `[c for c in common_cols if c != key]`. -/
def compareCols (t1 t2 : Table) (key : String) : List String :=
  (commonCols t1 t2).filter (fun c => c ≠ key)

/-- `df.loc[:, cs]` restricted to one row: the row projected onto columns
`cs`, in that column order. -/
def projectRow (cs : List String) (r : Row) : Row :=
  cs.map (fun c => (c, getCell r c))

/-! ### Key validation (`_validate_primary_key`, lines 46–62) -/

/-- The key-column values of a table, in row order (`df[key]`). -/
def keysOf (t : Table) (key : String) : List Cell :=
  t.rows.map (fun r => getCell r key)

/-- Structured form of the three `ValueError`s raised by
`_validate_primary_key`. -/
inductive KeyValidationError where
  | keyNotFound (label key : String) (columns : List String)
  | keyHasMissingValues (label key : String) (sampleRows : List Row)
  | keyNotUnique (label key : String) (duplicates : List Cell)
deriving Repr, DecidableEq

/-- `_validate_primary_key(df, key, label)`.
Checks, in order: key column present; no `NA` key cells (reporting
`.head(5)` offending rows); no duplicated key values
(`df[key].duplicated(keep=False)` marks every occurrence of a value appearing
more than once; `.head(10)` of the marked values is reported). -/
def validatePrimaryKey (t : Table) (key label : String) :
    Except KeyValidationError Unit :=
  if ¬ t.cols.contains key then
    .error (.keyNotFound label key t.cols)
  else
    let missingRows := t.rows.filter (fun r => (getCell r key).isNone)
    if ¬ missingRows.isEmpty then
      .error (.keyHasMissingValues label key (missingRows.take 5))
    else
      let keyVals := keysOf t key
      let dupes := (keyVals.filter (fun v => decide (2 ≤ keyVals.count v))).take 10
      if ¬ dupes.isEmpty then
        .error (.keyNotUnique label key dupes)
      else
        .ok ()

/-! ### Keyed diff engine (`compare_excels`, lines 65–108) -/

/-- Boolean order on cells used to model pandas' sorting of a string index
(validated key indexes contain no `NA`, so the `none` clauses never matter). -/
def cellLe : Cell → Cell → Bool
  | none, _ => true
  | some _, none => false
  | some a, some b => strLe a b

/-- Sorting of a key index, as pandas `Index.difference` performs. -/
def sortCells (l : List Cell) : List Cell := sortLe cellLe l

/-- `df2i.index.difference(df1i.index)`: right-only key values, deduplicated
and sorted (pandas' default `sort=None`). -/
def addedKeys (t1 t2 : Table) (key : String) : List Cell :=
  sortCells (((keysOf t2 key).filter
    (fun k => ¬ (keysOf t1 key).contains k)).dedup)

/-- `df1i.index.difference(df2i.index)`: left-only key values, deduplicated
and sorted. -/
def removedKeys (t1 t2 : Table) (key : String) : List Cell :=
  sortCells (((keysOf t1 key).filter
    (fun k => ¬ (keysOf t2 key).contains k)).dedup)

/-- `df1i.index.intersection(df2i.index)` (default `sort=False`): common key
values in left-table row order, deduplicated. -/
def commonKeys (t1 t2 : Table) (key : String) : List Cell :=
  (((keysOf t1 key).filter (fun k => (keysOf t2 key).contains k))).dedup

/-- `dfi.loc[k]`: the row of `t` whose key cell is `k` (validation guarantees
existence and uniqueness; the first matching row models the lookup). -/
def rowOfKey (t : Table) (key : String) (k : Cell) : Row :=
  ((t.rows.find? (fun r => getCell r key == k)).getD [])

/-- `df2i.loc[added_keys, common_cols]`: the added rows (lines 81, 84). -/
def keyedAdded (t1 t2 : Table) (key : String) : List Row :=
  (addedKeys t1 t2 key).map
    (fun k => projectRow (commonCols t1 t2) (rowOfKey t2 key k))

/-- `df1i.loc[removed_keys, common_cols]`: the removed rows (lines 82, 85). -/
def keyedRemoved (t1 t2 : Table) (key : String) : List Row :=
  (removedKeys t1 t2 key).map
    (fun k => projectRow (commonCols t1 t2) (rowOfKey t1 key k))

/-- Cell equality as pandas `DataFrame.compare` applies it on `string`-dtype
columns: `NA == NA` counts as equal, otherwise exact string equality. -/
def cellEqCmp : Cell → Cell → Bool
  | none, none => true
  | some a, some b => a == b
  | _, _ => false

/-- Whether the left and right rows at common key `k` differ in column `c`. -/
def cellDiffAt (t1 t2 : Table) (key : String) (k : Cell) (c : String) : Bool :=
  ! cellEqCmp (getCell (rowOfKey t1 key k) c) (getCell (rowOfKey t2 key k) c)

/-- Columns of `left.compare(right)`: compared columns containing at least one
difference (`keep_equal=False` drops all-equal columns). -/
def keptCols (t1 t2 : Table) (key : String) : List String :=
  (compareCols t1 t2 key).filter
    (fun c => (commonKeys t1 t2 key).any (fun k => cellDiffAt t1 t2 key k c))

/-- Rows of `left.compare(right)`: common keys whose rows contain at least one
difference (`keep_equal=False` drops all-equal rows). -/
def keptKeys (t1 t2 : Table) (key : String) : List Cell :=
  (commonKeys t1 t2 key).filter
    (fun k => (compareCols t1 t2 key).any (fun c => cellDiffAt t1 t2 key k c))

/-! #### Python string primitives used by `_flatten_columns` and
`_changed_df_to_modified_rows` -/

/-- Whether `p` is a prefix of `s`, on character lists. -/
def isPrefixCL : List Char → List Char → Bool
  | [], _ => true
  | _ :: _, [] => false
  | p :: ps, c :: cs => p == c && isPrefixCL ps cs

/-- Whether `p` occurs as a contiguous substring of `s` (Python `p in s`). -/
def containsCL (p : List Char) : List Char → Bool
  | [] => p.isEmpty
  | c :: cs => isPrefixCL p (c :: cs) || containsCL p cs

/-- Python `pat in s`. -/
def pyContains (s pat : String) : Bool := containsCL pat.data s.data

/-- Replace every non-overlapping occurrence of `p` by `r`, scanning left to
right; the fuel argument (any bound at least the string length works for a
non-empty pattern, the only case the source uses) makes the recursion
structural. -/
def replaceCL (p r : List Char) : Nat → List Char → List Char
  | 0, s => s
  | _ + 1, [] => []
  | n + 1, c :: cs =>
    if isPrefixCL p (c :: cs) then
      r ++ replaceCL p r n (List.drop p.length (c :: cs))
    else c :: replaceCL p r n cs

/-- Python `s.replace(pat, repl)` for a non-empty pattern. -/
def pyReplace (s pat repl : String) : String :=
  ⟨replaceCL pat.data repl.data s.data.length s.data⟩

/-- Python `" | ".join(parts)`. -/
def joinBar : List String → String
  | [] => ""
  | [s] => s
  | s :: t :: rest => s ++ " | " ++ joinBar (t :: rest)

/-- `_flatten_columns` (lines 30–43) applied to one column tuple:
`" | ".join(part for part in tup if part not in (None, "", "nan")).strip()`. -/
def flattenParts (parts : List String) : String :=
  strip (joinBar (parts.filter (fun p => p != "" && p != "nan")))

/-! #### The flattened `compare()` output and its re-parsing -/

/-- The `(file1, file2)` value pair `left.compare(right)` keeps for common key
`k` and kept column `c`; equal cells are masked to `NA`
(`keep_equal=False`). -/
def maskedPair (t1 t2 : Table) (key : String) (k : Cell) (c : String) :
    Cell × Cell :=
  let v1 := getCell (rowOfKey t1 key k) c
  let v2 := getCell (rowOfKey t2 key k) c
  if cellEqCmp v1 v2 then (none, none) else (v1, v2)

/-- Column labels of `changed` after `reset_index` and `_flatten_columns`:
the index column `(key, "")` first, then `(c, "file1")`, `(c, "file2")` for
each kept column `c`, each tuple flattened to a single string label. -/
def flattenedCols (t1 t2 : Table) (key : String) : List String :=
  flattenParts [key, ""] ::
    ((keptCols t1 t2 key).map (fun c =>
      [flattenParts [c, "file1"], flattenParts [c, "file2"]])).flatten

/-- One row of the flattened `changed` frame, as label ↦ value pairs. -/
def flattenedRow (t1 t2 : Table) (key : String) (k : Cell) : Row :=
  (flattenParts [key, ""], k) ::
    ((keptCols t1 t2 key).map (fun c =>
      [(flattenParts [c, "file1"], (maskedPair t1 t2 key k c).1),
       (flattenParts [c, "file2"], (maskedPair t1 t2 key k c).2)])).flatten

/-- `left.compare(right, align_axis=1, keep_equal=False).reset_index()` after
`_flatten_columns` (lines 91–97): one row per kept key over the flattened
string labels. -/
def changedDf (t1 t2 : Table) (key : String) : Table :=
  ⟨flattenedCols t1 t2 key, (keptKeys t1 t2 key).map (flattenedRow t1 t2 key)⟩

/-- `str(row_id)` for an `NA` id, `str(row_id).strip()` otherwise
(`_changed_df_to_modified_rows`, lines 193–197). -/
def idString : Cell → String
  | none => "<NA>"
  | some s => strip s

/-- Python dict assignment `d[k] = v`: overwrite in place if the key exists,
append otherwise. -/
def dictInsert (d : List (String × String × String)) (k : String)
    (v : String × String) : List (String × String × String) :=
  if d.any (fun q => q.1 == k) then
    d.map (fun q => if q.1 == k then (k, v) else q)
  else d ++ [(k, v)]

/-- The `col_pairs` loop of `_changed_df_to_modified_rows` (lines 177–190):
for each non-key flattened label, substring-match `" | file1"` /
`" | file2"`, re-derive the base name by replace-all plus strip, and pair it
with the partner label when that partner is among the columns; the dict
assignment silently overwrites an existing base. -/
def colPairsStep (allCols : List String)
    (acc : List (String × String × String)) (c : String) :
    List (String × String × String) :=
  if pyContains c " | file1" then
    (let base := strip (pyReplace c " | file1" "")
     if allCols.contains (base ++ " | file2") then
       dictInsert acc base (c, base ++ " | file2")
     else acc)
  else if pyContains c " | file2" &&
      !((acc.map (fun q => q.2.2)).contains c) then
    (let base := strip (pyReplace c " | file2" "")
     if allCols.contains (base ++ " | file1") then
       dictInsert acc base (base ++ " | file1", c)
     else acc)
  else acc

/-- The full `col_pairs` loop: one `colPairsStep` per non-key flattened
label, starting from the empty dict. -/
def colPairs (allCols : List String) (key : String) :
    List (String × String × String) :=
  (allCols.filter (fun c => c ≠ key)).foldl (colPairsStep allCols) []

/-- Lines 192–213: one flattened row to an optional modified record —
`row[key_col]` as identifier (an absent label is modelled as `NA`; the label
is present whenever the flattened index label equals `key`), then one Field
Change per `col_pairs` entry whose looked-up old and new values differ. -/
def rowToModified (key : String) (pairs : List (String × String × String))
    (row : Row) : Option ModRecord :=
  let changes := pairs.filterMap (fun q =>
    let o := (getCell row q.2.1).map strip
    let n := (getCell row q.2.2).map strip
    if o == n then none else some (⟨q.1, o, n⟩ : FieldChange))
  if changes.isEmpty then none else some ⟨idString (getCell row key), changes⟩

/-- `_changed_df_to_modified_rows(changed, key)` (lines 166–214). -/
def changedToModified (changed : Table) (key : String) : List ModRecord :=
  changed.rows.filterMap (rowToModified key (colPairs changed.cols key))

/-- The keyed engine's modified records, as the frontend receives them. -/
def keyedModified (t1 t2 : Table) (key : String) : List ModRecord :=
  changedToModified (changedDf t1 t2 key) key

/-- A column or key name the flattened-label re-parsing handles losslessly:
stripped, non-empty, not the literal `"nan"`, and free of the pairing
markers `" | file1"` / `" | file2"`. -/
def CleanName (c : String) : Prop :=
  strip c = c ∧ c ≠ "" ∧ c ≠ "nan" ∧
    pyContains c " | file1" = false ∧ pyContains c " | file2" = false

instance (c : String) : Decidable (CleanName c) := by
  unfold CleanName; infer_instance

/-- All column names of a table are clean for the flattened-label
re-parsing. -/
def CleanCols (t : Table) : Prop := ∀ c ∈ t.cols, CleanName c

instance (t : Table) : Decidable (CleanCols t) := by
  unfold CleanCols; infer_instance

/-! ### Positional diff engine (`compare_excels_by_position`, lines 111–163) -/

/-- Line 147: `(pd.isna(v1) and pd.isna(v2)) or (not pd.isna(v1) and not
pd.isna(v2) and str(v1).strip() == str(v2).strip())`. -/
def posCellSame (v1 v2 : Cell) : Bool :=
  (v1.isNone && v2.isNone) ||
    (v1.isSome && v2.isSome && (v1.map strip == v2.map strip))

/-- Lines 145–151: the Field Changes of one aligned row pair over the common
columns. -/
def posRowChanges (common : List String) (r1 r2 : Row) : List FieldChange :=
  common.filterMap (fun c =>
    let v1 := getCell r1 c
    let v2 := getCell r2 c
    if posCellSame v1 v2 then none
    else some ⟨c, v1.map strip, v2.map strip⟩)

/-- Lines 126–130: `df2.iloc[n1:n2][common_cols]` with a `row_index` column
inserted, empty when `n2 ≤ n1` or there is no common column. -/
def posAdded (t1 t2 : Table) : List (Nat × Row) :=
  let common := commonCols t1 t2
  if t2.rows.length > t1.rows.length && !common.isEmpty then
    (List.enumFrom t1.rows.length (t2.rows.drop t1.rows.length)).map
      (fun p => (p.1, projectRow common p.2))
  else []

/-- Lines 132–137: symmetric tail of the left table. -/
def posRemoved (t1 t2 : Table) : List (Nat × Row) :=
  let common := commonCols t1 t2
  if t1.rows.length > t2.rows.length && !common.isEmpty then
    (List.enumFrom t2.rows.length (t1.rows.drop t2.rows.length)).map
      (fun p => (p.1, projectRow common p.2))
  else []

/-- Lines 140–153: rows `0 ≤ i < min n1 n2` with at least one Field Change. -/
def posModified (t1 t2 : Table) : List PosRecord :=
  (List.range (min t1.rows.length t2.rows.length)).filterMap (fun i =>
    let chs := posRowChanges (commonCols t1 t2)
      (t1.rows.getD i []) (t2.rows.getD i [])
    if chs.isEmpty then none else some ⟨i, chs⟩)

/-! ### Result shaping (`get_comparison_for_frontend`,
`get_comparison_for_frontend_by_position`, lines 217–281) -/

/-- `df.fillna("").astype(str)` applied to one cell of a `string`-dtype
column. -/
def renderCell : Cell → String
  | none => ""
  | some s => s

/-- `df_to_list_of_dicts` applied to one row. -/
def renderRow (r : Row) : List (String × String) :=
  r.map (fun p => (p.1, renderCell p.2))

/-- The shaped keyed Comparison Result (`get_comparison_for_frontend`). -/
structure Frontend where
  added_count : Nat
  removed_count : Nat
  modified_count : Nat
  columns_only_in_file1 : List String
  columns_only_in_file2 : List String
  added_rows : List (List (String × String))
  removed_rows : List (List (String × String))
  modified_rows : List ModRecord
deriving Repr, DecidableEq

/-- `get_comparison_for_frontend(df1, df2, key)` (lines 217–249);
`modified_count` is `changed[key].nunique()`, the number of distinct non-`NA`
key values among changed rows. -/
def getComparisonForFrontend (t1 t2 : Table) (key : String) : Frontend where
  added_count := (addedKeys t1 t2 key).length
  removed_count := (removedKeys t1 t2 key).length
  modified_count := (((keptKeys t1 t2 key).filter (fun k => k.isSome)).dedup).length
  columns_only_in_file1 := onlyIn1 t1 t2
  columns_only_in_file2 := onlyIn2 t1 t2
  added_rows := (keyedAdded t1 t2 key).map renderRow
  removed_rows := (keyedRemoved t1 t2 key).map renderRow
  modified_rows := keyedModified t1 t2 key

/-- Positional modified row as shaped for the frontend:
`{"id": f"Row {m['row_index']}", "row_index": ..., "changes": ...}`. -/
structure PosFrontRecord where
  id : String
  row_index : Nat
  changes : List FieldChange
deriving Repr, DecidableEq

/-- The shaped positional Comparison Result
(`get_comparison_for_frontend_by_position`). -/
structure PosFrontend where
  added_count : Nat
  removed_count : Nat
  modified_count : Nat
  columns_only_in_file1 : List String
  columns_only_in_file2 : List String
  added_rows : List (List (String × String))
  removed_rows : List (List (String × String))
  modified_rows : List PosFrontRecord
deriving Repr, DecidableEq

/-- One positional added/removed row as `df_to_list_of_dicts` renders it: the
inserted integer `row_index` column stringified, then the projected cells. -/
def renderPosRow (p : Nat × Row) : List (String × String) :=
  ("row_index", toString p.1) :: renderRow p.2

/-- `get_comparison_for_frontend_by_position(df1, df2)` (lines 252–281). -/
def getComparisonForFrontendByPosition (t1 t2 : Table) : PosFrontend where
  added_count := (posAdded t1 t2).length
  removed_count := (posRemoved t1 t2).length
  modified_count := (posModified t1 t2).length
  columns_only_in_file1 := onlyIn1 t1 t2
  columns_only_in_file2 := onlyIn2 t1 t2
  added_rows := (posAdded t1 t2).map renderPosRow
  removed_rows := (posRemoved t1 t2).map renderPosRow
  modified_rows := (posModified t1 t2).map
    (fun m => ⟨"Row " ++ toString m.row_index, m.row_index, m.changes⟩)

/-! ### Keyed-mode call protocol (`main` lines 403–407, `api_compare`
lines 228–238): validate file1, then file2, then diff.  A raised
`ValueError` aborts the call, so a left-table failure is reported alone. -/

/-- The keyed comparison guarded by both validations, as `main` and
`api_compare` run it. -/
def runKeyedComparison (t1 t2 : Table) (key : String) :
    Except KeyValidationError Frontend :=
  match validatePrimaryKey t1 key "file1" with
  | .error e => .error e
  | .ok _ =>
    match validatePrimaryKey t2 key "file2" with
    | .error e => .error e
    | .ok _ => .ok (getComparisonForFrontend t1 t2 key)

/-! ### Spec-side reference definitions (for refinement comparisons only;
these follow the specification's words, not the code) -/

/-- Modelled from the spec: «Added rows: right-table rows at `added_keys`,
projected onto `common` columns …, in right-table row order» — the right-only
rows taken in right-table row order. -/
def specAddedRightOrder (t1 t2 : Table) (key : String) : List Row :=
  (t2.rows.filter
    (fun r => ¬ (keysOf t1 key).contains (getCell r key))).map
    (projectRow (commonCols t1 t2))

/-- Modelled from the spec: «If `n2 > n1`: added rows = right rows at
positions `[n1, n2)`, each carrying its row_index, projected onto `common`
columns» — with no exception for an empty common-column set. -/
def specPosAdded (t1 t2 : Table) : List (Nat × Row) :=
  if t2.rows.length > t1.rows.length then
    (List.enumFrom t1.rows.length (t2.rows.drop t1.rows.length)).map
      (fun p => (p.1, projectRow (commonCols t1 t2) p.2))
  else []

/-! ### Derived forms used in the statements and proofs -/

/-- The Field Changes the keyed engine reports for the common key `k`: one per
compared column whose cells differ, carrying the left and right cells.  The
pandas pipeline (`changedDf` then `changedToModified`) reduces to this on
normalized tables. -/
def directChanges (t1 t2 : Table) (key : String) (k : Cell) : List FieldChange :=
  (compareCols t1 t2 key).filterMap (fun c =>
    let v1 := getCell (rowOfKey t1 key k) c
    let v2 := getCell (rowOfKey t2 key k) c
    if cellEqCmp v1 v2 then none else some ⟨c, v1, v2⟩)

/-- Swapping the old and new value of a Field Change. -/
def swapFieldChange (ch : FieldChange) : FieldChange :=
  ⟨ch.column, ch.new_value, ch.old_value⟩

/-- Swapping old and new values throughout a keyed modified record. -/
def swapModRecord (m : ModRecord) : ModRecord :=
  ⟨m.id, m.changes.map swapFieldChange⟩

/-- Swapping old and new values throughout a positional modified record. -/
def swapPosRecord (m : PosRecord) : PosRecord :=
  ⟨m.row_index, m.changes.map swapFieldChange⟩

/-- All Field Changes the keyed result attributes to identifier `idv`. -/
def changesForId (l : List ModRecord) (idv : String) : List FieldChange :=
  (((l.filter (fun m => m.id == idv)).map (fun m => m.changes))).flatten

/-- All Field Changes the positional result attributes to row index `i`. -/
def changesForIndex (l : List PosRecord) (i : Nat) : List FieldChange :=
  (((l.filter (fun m => m.row_index == i)).map (fun m => m.changes))).flatten

/-! ### Concrete tables used by witnesses and counterexamples -/

/-- Left table of the specification's keyed example. -/
def sampleLeft : Table :=
  ⟨["id", "name"],
   [[("id", some "1"), ("name", some "A")],
    [("id", some "2"), ("name", some "B")]]⟩

/-- Right table of the specification's keyed example. -/
def sampleRight : Table :=
  ⟨["id", "name"],
   [[("id", some "2"), ("name", some "B2")],
    [("id", some "3"), ("name", some "C")]]⟩

/-- `sampleLeft` with its columns listed in the opposite order. -/
def sampleLeftShuffled : Table :=
  ⟨["name", "id"],
   [[("id", some "1"), ("name", some "A")],
    [("id", some "2"), ("name", some "B")]]⟩

/-- A left table with no rows and key column `k`. -/
def emptyKeyed : Table := ⟨["k"], []⟩

/-- A right table whose two right-only keys appear in descending order, so
that right-table row order and sorted key order disagree. -/
def twoKeysDescending : Table :=
  ⟨["k"], [[("k", some "b")], [("k", some "a")]]⟩

/-- A one-column table with no rows. -/
def soloColA : Table := ⟨["a"], []⟩

/-- A one-row table whose single column is disjoint from `soloColA`'s. -/
def soloColB : Table := ⟨["b"], [[("b", some "x")]]⟩

/-- A table with a duplicated key value, rejected by the Key Validator. -/
def dupKeyTable : Table := ⟨["id"], [[("id", some "5")], [("id", some "5")]]⟩

/-- Left table with a column whose name already embeds the `" | file1"`
pairing marker; its flattened labels re-parse to bases whose partner columns
do not exist, so the program drops the Field Change. -/
def markerLeft : Table :=
  ⟨["k", "x | file1"], [[("k", some "1"), ("x | file1", some "a")]]⟩

/-- Right counterpart of `markerLeft`, differing in the marked column. -/
def markerRight : Table :=
  ⟨["k", "x | file1"], [[("k", some "1"), ("x | file1", some "b")]]⟩

/-- Left table sharing columns `"a"` and `"a | file1"`; the `col_pairs` dict
overwrite mispairs them. -/
def overlapLeft : Table :=
  ⟨["k", "a", "a | file1"],
   [[("k", some "1"), ("a", some "A1"), ("a | file1", some "B1")]]⟩

/-- Right counterpart of `overlapLeft`, all non-key cells differing. -/
def overlapRight : Table :=
  ⟨["k", "a", "a | file1"],
   [[("k", some "1"), ("a", some "A2"), ("a | file1", some "B2")]]⟩

/-- Left table whose key is named `"qx | file2"`: the re-parsed base `"qx"`
pairs a value column with the key column, emitting a Field Change whose
column name `"qx"` is a column only `leakLeft` has. -/
def leakLeft : Table :=
  ⟨["qx | file2", "q | file1x", "qx"],
   [[("qx | file2", some "1"), ("q | file1x", some "L"), ("qx", some "z")]]⟩

/-- Right counterpart of `leakLeft`, without the `"qx"` column. -/
def leakRight : Table :=
  ⟨["qx | file2", "q | file1x"],
   [[("qx | file2", some "1"), ("q | file1x", some "R")]]⟩

/-- Left table of the specification's positional-tail example (2 rows). -/
def tailLeft : Table := ⟨["id"], [[("id", some "1")], [("id", some "2")]]⟩

/-- Right table of the specification's positional-tail example (3 rows). -/
def tailRight : Table :=
  ⟨["id"], [[("id", some "1")], [("id", some "2")], [("id", some "3")]]⟩

/-! ## Order lemmas for the string and cell comparators -/

theorem charsLe_total : ∀ x y : List Char, charsLe x y = true ∨ charsLe y x = true
  | [], _ => Or.inl rfl
  | _ :: _, [] => Or.inr rfl
  | a :: as, b :: bs => by
    rcases Nat.lt_trichotomy a.toNat b.toNat with h | h | h
    · exact Or.inl (by simp [charsLe, h])
    · rcases charsLe_total as bs with ih | ih
      · exact Or.inl (by simp [charsLe, h, ih])
      · exact Or.inr (by simp [charsLe, h, ih])
    · exact Or.inr (by simp [charsLe, h])

theorem charsLe_trans :
    ∀ x y z : List Char,
      charsLe x y = true → charsLe y z = true → charsLe x z = true
  | [], _, _ => fun _ _ => rfl
  | _ :: _, [], _ => fun h _ => by simp [charsLe] at h
  | _ :: _, _ :: _, [] => fun _ h => by simp [charsLe] at h
  | a :: as, b :: bs, c :: cs => fun h1 h2 => by
    simp only [charsLe, Bool.or_eq_true, Bool.and_eq_true, decide_eq_true_eq,
      beq_iff_eq] at h1 h2 ⊢
    rcases h1 with h1 | ⟨h1e, h1r⟩ <;> rcases h2 with h2 | ⟨h2e, h2r⟩
    · exact Or.inl (by omega)
    · exact Or.inl (by omega)
    · exact Or.inl (by omega)
    · exact Or.inr ⟨by omega, charsLe_trans as bs cs h1r h2r⟩

theorem char_toNat_inj {a b : Char} (h : a.toNat = b.toNat) : a = b := by
  have := congrArg Char.ofNat h
  rwa [Char.ofNat_toNat, Char.ofNat_toNat] at this

theorem charsLe_antisymm :
    ∀ x y : List Char, charsLe x y = true → charsLe y x = true → x = y
  | [], [] => fun _ _ => rfl
  | [], _ :: _ => fun _ h => by simp [charsLe] at h
  | _ :: _, [] => fun h _ => by simp [charsLe] at h
  | a :: as, b :: bs => fun h1 h2 => by
    simp only [charsLe, Bool.or_eq_true, Bool.and_eq_true, decide_eq_true_eq,
      beq_iff_eq] at h1 h2
    rcases h1 with h1 | ⟨h1e, h1r⟩ <;> rcases h2 with h2 | ⟨h2e, h2r⟩
    · omega
    · omega
    · omega
    · exact congrArg₂ (· :: ·) (char_toNat_inj h1e)
        (charsLe_antisymm as bs h1r h2r)

theorem strLe_total (a b : String) : strLe a b = true ∨ strLe b a = true :=
  charsLe_total a.data b.data

theorem strLe_trans {a b c : String} (h1 : strLe a b = true)
    (h2 : strLe b c = true) : strLe a c = true :=
  charsLe_trans a.data b.data c.data h1 h2

theorem strLe_antisymm {a b : String} (h1 : strLe a b = true)
    (h2 : strLe b a = true) : a = b :=
  String.ext (charsLe_antisymm a.data b.data h1 h2)

theorem cellLe_total (a b : Cell) : cellLe a b = true ∨ cellLe b a = true := by
  cases a <;> cases b <;> simp [cellLe]
  exact strLe_total _ _

theorem cellLe_trans {a b c : Cell} (h1 : cellLe a b = true)
    (h2 : cellLe b c = true) : cellLe a c = true := by
  cases a <;> cases b <;> cases c <;> simp [cellLe] at h1 h2 ⊢
  exact strLe_trans h1 h2

theorem cellLe_antisymm {a b : Cell} (h1 : cellLe a b = true)
    (h2 : cellLe b a = true) : a = b := by
  cases a <;> cases b <;> simp [cellLe] at h1 h2 ⊢
  exact strLe_antisymm h1 h2

/-! ## Lemmas about the insertion sort `sortLe` -/

theorem perm_insertLe (le : α → α → Bool) (a : α) :
    ∀ l : List α, (insertLe le a l).Perm (a :: l)
  | [] => .refl _
  | b :: l => by
    cases h : le a b
    · simpa [insertLe, h] using ((perm_insertLe le a l).cons b).trans
        (List.Perm.swap a b l)
    · simp [insertLe, h]

theorem sortLe_perm (le : α → α → Bool) : ∀ l : List α, (sortLe le l).Perm l
  | [] => .refl _
  | a :: l =>
    (perm_insertLe le a (sortLe le l)).trans ((sortLe_perm le l).cons a)

theorem mem_sortLe {le : α → α → Bool} {l : List α} {x : α} :
    x ∈ sortLe le l ↔ x ∈ l :=
  (sortLe_perm le l).mem_iff

theorem sorted_insertLe {le : α → α → Bool}
    (htot : ∀ a b, le a b = true ∨ le b a = true)
    (htrans : ∀ {a b c}, le a b = true → le b c = true → le a c = true)
    (a : α) :
    ∀ {l : List α}, l.Pairwise (fun x y => le x y = true) →
      (insertLe le a l).Pairwise (fun x y => le x y = true)
  | [], _ => List.pairwise_singleton _ _
  | b :: l, h => by
    rcases List.pairwise_cons.mp h with ⟨hb, hl⟩
    cases hab : le a b
    · have hrw : insertLe le a (b :: l) = b :: insertLe le a l := by
        simp [insertLe, hab]
      rw [hrw]
      have hba : le b a = true := (htot a b).resolve_left (by simp [hab])
      refine List.pairwise_cons.mpr ⟨?_, sorted_insertLe htot htrans a hl⟩
      intro x hx
      rcases List.mem_cons.mp ((perm_insertLe le a l).mem_iff.mp hx) with rfl | hx
      · exact hba
      · exact hb x hx
    · have hrw : insertLe le a (b :: l) = a :: b :: l := by
        simp [insertLe, hab]
      rw [hrw]
      refine List.pairwise_cons.mpr ⟨?_, h⟩
      intro x hx
      rcases List.mem_cons.mp hx with rfl | hx
      · exact hab
      · exact htrans hab (hb x hx)

theorem sorted_sortLe {le : α → α → Bool}
    (htot : ∀ a b, le a b = true ∨ le b a = true)
    (htrans : ∀ {a b c}, le a b = true → le b c = true → le a c = true) :
    ∀ l : List α, (sortLe le l).Pairwise (fun x y => le x y = true)
  | [] => .nil
  | a :: l => sorted_insertLe htot htrans a (sorted_sortLe htot htrans l)

theorem sortLe_eq_of_perm {le : α → α → Bool}
    (htot : ∀ a b, le a b = true ∨ le b a = true)
    (htrans : ∀ {a b c}, le a b = true → le b c = true → le a c = true)
    (hanti : ∀ {a b}, le a b = true → le b a = true → a = b)
    {l₁ l₂ : List α} (h : l₁.Perm l₂) : sortLe le l₁ = sortLe le l₂ := by
  haveI : IsAntisymm α (fun x y => le x y = true) := ⟨fun _ _ => hanti⟩
  exact List.eq_of_perm_of_sorted
    (((sortLe_perm le l₁).trans h).trans (sortLe_perm le l₂).symm)
    (sorted_sortLe htot htrans l₁) (sorted_sortLe htot htrans l₂)

/-! ## Generic list lemmas -/

theorem contains_iff_mem [BEq α] [LawfulBEq α] {l : List α} {a : α} :
    l.contains a = true ↔ a ∈ l := List.elem_iff

theorem filterMap_filter_congr (p : α → Bool) (f g : α → Option β) :
    ∀ l : List α, (∀ a ∈ l, p a = true → f a = g a) →
      (∀ a ∈ l, p a = false → g a = none) →
      (l.filter p).filterMap f = l.filterMap g
  | [], _, _ => rfl
  | a :: l, h1, h2 => by
    have ih := filterMap_filter_congr p f g l
      (fun a' ha' => h1 a' (List.mem_cons_of_mem _ ha'))
      (fun a' ha' => h2 a' (List.mem_cons_of_mem _ ha'))
    cases hp : p a
    · simp [List.filter_cons, hp, List.filterMap_cons,
        h2 a (List.mem_cons_self _ _) hp, ih]
    · simp [List.filter_cons, hp, List.filterMap_cons,
        h1 a (List.mem_cons_self _ _) hp, ih]

theorem filter_filterMap_none (f : α → Option β) (p : β → Bool)
    {l : List α} (hsel : ∀ a ∈ l, ∀ b, f a = some b → p b = false) :
    (l.filterMap f).filter p = [] := by
  rw [List.filter_eq_nil_iff]
  intro b hb
  rcases List.mem_filterMap.mp hb with ⟨a, ha, hfa⟩
  simp [hsel a ha b hfa]

theorem filter_filterMap_unique [DecidableEq α]
    (f : α → Option β) (p : β → Bool) (a₀ : α) :
    ∀ l : List α, l.Nodup → a₀ ∈ l →
      (∀ a ∈ l, ∀ b, f a = some b → p b = true → a = a₀) →
      (l.filterMap f).filter p = (f a₀).toList.filter p
  | [], _, h, _ => absurd h (List.not_mem_nil a₀)
  | a :: l, hl, hmem, hsel => by
    rcases List.nodup_cons.mp hl with ⟨hnm, hnd⟩
    rw [List.filterMap_cons]
    by_cases he : a₀ = a
    · subst he
      have htail : (l.filterMap f).filter p = [] := by
        apply filter_filterMap_none
        intro a' ha' b hb
        cases hpb : p b with
        | true =>
          exact absurd (hsel a' (List.mem_cons_of_mem _ ha') b hb hpb)
            (fun h => hnm (h ▸ ha'))
        | false => rfl
      cases hfa : f a₀ with
      | none => simpa using htail
      | some b => simp [List.filter_cons, htail]
    · have ha₀l : a₀ ∈ l := (List.mem_cons.mp hmem).resolve_left he
      have ih := filter_filterMap_unique f p a₀ l hnd ha₀l
        (fun a' ha' => hsel a' (List.mem_cons_of_mem _ ha'))
      cases hfa : f a with
      | none => exact ih
      | some b =>
        have hpb : p b = false := by
          cases hpb : p b with
          | true =>
            exact absurd (hsel a (List.mem_cons_self _ _) b hfa hpb)
              (fun h => he h.symm)
          | false => rfl
        rw [List.filter_cons, hpb]
        simpa using ih

theorem filterMap_if_eq_filter_map (p : α → Bool) (h : α → β) :
    ∀ l : List α,
      l.filterMap (fun a => if p a then some (h a) else none) =
        (l.filter p).map h
  | [] => rfl
  | a :: l => by
    cases hp : p a <;>
      simp [List.filterMap_cons, List.filter_cons, hp,
        filterMap_if_eq_filter_map p h l]

theorem pairwise_filterMap_of_pairwise {R : α → α → Prop} {S : β → β → Prop}
    (f : α → Option β)
    (hf : ∀ a a' b b', f a = some b → f a' = some b' → R a a' → S b b') :
    ∀ {l : List α}, l.Pairwise R → (l.filterMap f).Pairwise S
  | [], _ => .nil
  | a :: l, h => by
    rcases List.pairwise_cons.mp h with ⟨ha, hl⟩
    rw [List.filterMap_cons]
    cases hfa : f a with
    | none => exact pairwise_filterMap_of_pairwise f hf hl
    | some b =>
      refine List.pairwise_cons.mpr
        ⟨?_, pairwise_filterMap_of_pairwise f hf hl⟩
      intro b' hb'
      rcases List.mem_filterMap.mp hb' with ⟨a', ha', hfa'⟩
      exact hf a a' b b' hfa hfa' (ha a' ha')

/-! ## Normalization lemmas -/

theorem NormCell.map_strip {v : Cell} (h : NormCell v) : v.map strip = v := by
  cases v with
  | none => rfl
  | some s => simp [Option.map, (h s rfl).1]

theorem NormCell.ne_some_empty {v : Cell} (h : NormCell v) : v ≠ some "" :=
  fun he => (h "" he).2 rfl

theorem normCell_getCell {r : Row} (h : ∀ p ∈ r, NormCell p.2) (c : String) :
    NormCell (getCell r c) := by
  intro s hs
  unfold getCell at hs
  have hlk : r.lookup c = some (some s) := by
    cases hl : r.lookup c with
    | none => rw [hl] at hs; exact absurd hs (by simp [Option.join])
    | some v => rw [hl] at hs; exact congrArg some (by simpa [Option.join] using hs)
  rcases List.lookup_eq_some_iff.mp hlk with ⟨l₁, l₂, hr, -⟩
  have hmem : (c, some s) ∈ r := by rw [hr]; exact List.mem_append_right _ (List.mem_cons_self _ _)
  exact h (c, some s) hmem s rfl

theorem normTable_rowOfKey {t : Table} (h : NormTable t) (key : String)
    (k : Cell) (c : String) : NormCell (getCell (rowOfKey t key k) c) := by
  unfold rowOfKey
  cases hf : t.rows.find? (fun r => getCell r key == k) with
  | none => intro s hs; exact absurd hs (by simp [getCell, Option.join])
  | some r =>
    have hr : r ∈ t.rows := List.mem_of_find?_eq_some hf
    exact normCell_getCell (fun p hp => h.2 r hr p hp) c

theorem normTable_rowAt {t : Table} (h : NormTable t) (i : Nat) (c : String) :
    NormCell (getCell (t.rows.getD i []) c) := by
  rw [List.getD_eq_getElem?_getD]
  cases hg : t.rows[i]? with
  | none => intro s hs; exact absurd hs (by simp [getCell, Option.join])
  | some r =>
    have hr : r ∈ t.rows := by
      rcases List.getElem?_eq_some.mp hg with ⟨hi, rfl⟩
      exact List.getElem_mem hi
    exact normCell_getCell (fun p hp => h.2 r hr p hp) c

/-! ## Characterizations of the schema reconciliation -/

theorem mem_commonCols {t1 t2 : Table} {c : String} :
    c ∈ commonCols t1 t2 ↔ c ∈ t1.cols ∧ c ∈ t2.cols := by
  unfold commonCols sortStrings
  rw [mem_sortLe, List.mem_filter, List.mem_dedup, contains_iff_mem]

theorem mem_onlyIn1 {t1 t2 : Table} {c : String} :
    c ∈ onlyIn1 t1 t2 ↔ c ∈ t1.cols ∧ c ∉ t2.cols := by
  unfold onlyIn1 sortStrings
  rw [mem_sortLe, List.mem_filter, List.mem_dedup]
  simp [contains_iff_mem]

theorem mem_onlyIn2 {t1 t2 : Table} {c : String} :
    c ∈ onlyIn2 t1 t2 ↔ c ∈ t2.cols ∧ c ∉ t1.cols := by
  unfold onlyIn2 sortStrings
  rw [mem_sortLe, List.mem_filter, List.mem_dedup]
  simp [contains_iff_mem]

theorem nodup_commonCols (t1 t2 : Table) : (commonCols t1 t2).Nodup :=
  (sortLe_perm _ _).nodup_iff.mpr ((List.nodup_dedup _).filter _)

theorem nodup_compareCols (t1 t2 : Table) (key : String) :
    (compareCols t1 t2 key).Nodup :=
  (nodup_commonCols t1 t2).filter _

theorem mem_compareCols {t1 t2 : Table} {key c : String} :
    c ∈ compareCols t1 t2 key ↔ c ∈ commonCols t1 t2 ∧ c ≠ key := by
  unfold compareCols
  rw [List.mem_filter]
  simp

theorem commonCols_comm (t1 t2 : Table) : commonCols t1 t2 = commonCols t2 t1 := by
  unfold commonCols sortStrings
  apply sortLe_eq_of_perm strLe_total strLe_trans strLe_antisymm
  apply List.perm_of_nodup_nodup_toFinset_eq
    ((List.nodup_dedup _).filter _) ((List.nodup_dedup _).filter _)
  ext c
  simp only [List.mem_toFinset, List.mem_filter, List.mem_dedup,
    contains_iff_mem]
  tauto

theorem compareCols_comm (t1 t2 : Table) (key : String) :
    compareCols t1 t2 key = compareCols t2 t1 key := by
  unfold compareCols
  rw [commonCols_comm]

/-! ## Characterizations of the key machinery -/

theorem cellEqCmp_refl (v : Cell) : cellEqCmp v v = true := by
  cases v <;> simp [cellEqCmp]

theorem cellEqCmp_comm (v1 v2 : Cell) : cellEqCmp v1 v2 = cellEqCmp v2 v1 := by
  cases v1 <;> cases v2 <;> simp [cellEqCmp, BEq.comm]

theorem ne_of_cellEqCmp_false {v1 v2 : Cell} (h : cellEqCmp v1 v2 = false) :
    v1 ≠ v2 := by
  intro he
  rw [he, cellEqCmp_refl] at h
  simp at h

theorem posCellSame_comm (v1 v2 : Cell) :
    posCellSame v1 v2 = posCellSame v2 v1 := by
  cases v1 <;> cases v2 <;> simp [posCellSame, BEq.comm]

theorem mem_keysOf {t : Table} {key : String} {k : Cell} :
    k ∈ keysOf t key ↔ ∃ r ∈ t.rows, getCell r key = k := by
  unfold keysOf
  simp [List.mem_map]

theorem normCell_of_mem_keysOf {t : Table} {key : String} (h : NormTable t)
    {k : Cell} (hk : k ∈ keysOf t key) : NormCell k := by
  rcases mem_keysOf.mp hk with ⟨r, hr, rfl⟩
  exact normCell_getCell (fun p hp => h.2 r hr p hp) key

theorem mem_commonKeys {t1 t2 : Table} {key : String} {k : Cell} :
    k ∈ commonKeys t1 t2 key ↔ k ∈ keysOf t1 key ∧ k ∈ keysOf t2 key := by
  unfold commonKeys
  rw [List.mem_dedup, List.mem_filter, contains_iff_mem]

theorem nodup_commonKeys (t1 t2 : Table) (key : String) :
    (commonKeys t1 t2 key).Nodup := List.nodup_dedup _

theorem mem_addedKeys {t1 t2 : Table} {key : String} {k : Cell} :
    k ∈ addedKeys t1 t2 key ↔ k ∈ keysOf t2 key ∧ k ∉ keysOf t1 key := by
  unfold addedKeys sortCells
  rw [mem_sortLe, List.mem_dedup, List.mem_filter]
  simp [contains_iff_mem]

theorem mem_removedKeys {t1 t2 : Table} {key : String} {k : Cell} :
    k ∈ removedKeys t1 t2 key ↔ k ∈ keysOf t1 key ∧ k ∉ keysOf t2 key := by
  unfold removedKeys sortCells
  rw [mem_sortLe, List.mem_dedup, List.mem_filter]
  simp [contains_iff_mem]

/-! ## Characterization of the Key Validator's branches -/

theorem missing_isEmpty_iff {t : Table} {key : String} :
    (t.rows.filter (fun r => (getCell r key).isNone)).isEmpty = true ↔
      ∀ r ∈ t.rows, (getCell r key).isSome := by
  rw [List.isEmpty_iff, List.filter_eq_nil_iff]
  constructor
  · intro h r hr
    have := h r hr
    cases hc : getCell r key with
    | none => exact absurd (by simp [hc]) (this)
    | some s => simp
  · intro h r hr
    have := h r hr
    cases hc : getCell r key with
    | none => rw [hc] at this; exact absurd this (by simp)
    | some s => simp [hc]

theorem nodup_iff_count_le_one_beq [BEq α] [LawfulBEq α] :
    ∀ {l : List α}, l.Nodup ↔ ∀ a, List.count a l ≤ 1
  | [] => by simp
  | b :: l => by
    rw [List.nodup_cons]
    constructor
    · intro ⟨hb, hnd⟩ a
      rw [List.count_cons]
      by_cases hab : a = b
      · subst hab
        rw [List.count_eq_zero.mpr hb]
        simp
      · have hba : (b == a) = false := by
          simp only [beq_eq_false_iff_ne]
          exact fun h => hab h.symm
        rw [hba]
        simpa using nodup_iff_count_le_one_beq.mp hnd a
    · intro h
      refine ⟨?_, nodup_iff_count_le_one_beq.mpr fun a => ?_⟩
      · intro hb
        have h1 : 0 < List.count b l := List.count_pos_iff.mpr hb
        have h2 := h b
        rw [List.count_cons] at h2
        simp at h2
        omega
      · have h2 := h a
        rw [List.count_cons] at h2
        by_cases hba : (b == a) = true
        · rw [if_pos hba] at h2
          omega
        · rw [if_neg hba] at h2
          omega

theorem dupes_isEmpty_iff {t : Table} {key : String} :
    (((keysOf t key).filter
        (fun v => decide (2 ≤ (keysOf t key).count v))).take 10).isEmpty = true ↔
      (keysOf t key).Nodup := by
  rw [List.isEmpty_iff, List.take_eq_nil_iff]
  constructor
  · intro h
    rcases h with h | h
    · exact absurd h (by norm_num)
    · rw [List.filter_eq_nil_iff] at h
      rw [nodup_iff_count_le_one_beq]
      intro v
      by_cases hv : v ∈ keysOf t key
      · have := h v hv
        simp only [decide_eq_true_eq] at this
        omega
      · rw [List.count_eq_zero.mpr hv]
        omega
  · intro h
    right
    rw [List.filter_eq_nil_iff]
    intro v hv
    have := nodup_iff_count_le_one_beq.mp h v
    simp only [decide_eq_true_eq]
    omega

theorem validatePrimaryKey_ok_iff {t : Table} {key label : String} :
    validatePrimaryKey t key label = .ok () ↔
      (key ∈ t.cols ∧ (∀ r ∈ t.rows, (getCell r key).isSome) ∧
        (keysOf t key).Nodup) := by
  unfold validatePrimaryKey
  by_cases h1 : t.cols.contains key = true
  · rw [if_neg (by simpa using h1)]
    by_cases h2 : (t.rows.filter (fun r => (getCell r key).isNone)).isEmpty = true
    · rw [if_neg (by simpa using h2)]
      by_cases h3 : (((keysOf t key).filter
          (fun v => decide (2 ≤ (keysOf t key).count v))).take 10).isEmpty = true
      · rw [if_neg (by simpa using h3)]
        constructor
        · intro _
          exact ⟨contains_iff_mem.mp h1, missing_isEmpty_iff.mp h2,
            dupes_isEmpty_iff.mp h3⟩
        · intro _
          rfl
      · rw [if_pos (by simpa using h3)]
        constructor
        · intro hc
          exact absurd hc (by simp)
        · intro hc
          exact absurd (dupes_isEmpty_iff.mpr hc.2.2) h3
    · rw [if_pos (by simpa using h2)]
      constructor
      · intro hc; exact absurd hc (by simp)
      · intro hc; exact absurd (missing_isEmpty_iff.mpr hc.2.1) h2
  · rw [if_pos (by simpa using h1)]
    constructor
    · intro hc; exact absurd hc (by simp)
    · intro hc; exact absurd (contains_iff_mem.mpr hc.1) (by simpa using h1)

theorem keys_isSome_of_ok {t : Table} {key label : String}
    (h : validatePrimaryKey t key label = .ok ()) :
    ∀ k ∈ keysOf t key, k.isSome := by
  intro k hk
  rcases mem_keysOf.mp hk with ⟨r, hr, rfl⟩
  exact (validatePrimaryKey_ok_iff.mp h).2.1 r hr

theorem idString_inj {k k' : Cell} (h : NormCell k) (h' : NormCell k')
    (hs : k.isSome) (hs' : k'.isSome) (he : idString k = idString k') :
    k = k' := by
  cases k with
  | none => exact absurd hs (by simp)
  | some s =>
    cases k' with
    | none => exact absurd hs' (by simp)
    | some s' =>
      simp only [idString] at he
      rw [(h s rfl).1, (h' s' rfl).1] at he
      exact congrArg some he

/-! ## The pandas compare pipeline reduces to the direct per-cell diff -/

theorem directChanges_eq_nil_iff {t1 t2 : Table} {key : String} {k : Cell} :
    directChanges t1 t2 key k = [] ↔
      ∀ c ∈ compareCols t1 t2 key, cellDiffAt t1 t2 key k c = false := by
  unfold directChanges cellDiffAt
  rw [List.filterMap_eq_nil_iff]
  constructor
  · intro h c hc
    have hcn := h c hc
    by_cases hcmp : cellEqCmp (getCell (rowOfKey t1 key k) c)
        (getCell (rowOfKey t2 key k) c) = true
    · simp [hcmp]
    · rw [if_neg hcmp] at hcn
      exact absurd hcn (by simp)
  · intro h c hc
    have hcd := h c hc
    have hcmp : cellEqCmp (getCell (rowOfKey t1 key k) c)
        (getCell (rowOfKey t2 key k) c) = true := by
      cases hcmp' : cellEqCmp (getCell (rowOfKey t1 key k) c)
          (getCell (rowOfKey t2 key k) c)
      · rw [hcmp'] at hcd
        exact absurd hcd (by simp)
      · rfl
    simp [hcmp]

/-! ## Lemmas about the Python string primitives -/

theorem isPrefixCL_iff_take : ∀ (p s : List Char),
    isPrefixCL p s = true ↔ p = s.take p.length
  | [], s => by simp [isPrefixCL]
  | p :: ps, [] => by simp [isPrefixCL]
  | a :: ps, c :: cs => by
    have ih := isPrefixCL_iff_take ps cs
    simp only [isPrefixCL, Bool.and_eq_true, beq_iff_eq, List.length_cons,
      List.take_succ_cons, List.cons.injEq]
    constructor
    · rintro ⟨rfl, h⟩
      exact ⟨rfl, ih.mp h⟩
    · rintro ⟨rfl, h⟩
      exact ⟨rfl, ih.mpr h⟩

theorem isPrefixCL_refl (p : List Char) : isPrefixCL p p = true := by
  rw [isPrefixCL_iff_take p p]
  exact (List.take_length p).symm

theorem containsCL_iff : ∀ (p s : List Char),
    containsCL p s = true ↔ ∃ u v, s = u ++ p ++ v
  | p, [] => by
    simp only [containsCL, List.isEmpty_iff]
    constructor
    · rintro rfl
      exact ⟨[], [], rfl⟩
    · rintro ⟨u, v, huv⟩
      rcases List.append_eq_nil.mp huv.symm with ⟨h1, h2⟩
      exact (List.append_eq_nil.mp h1).2
  | p, c :: cs => by
    have ih := containsCL_iff p cs
    simp only [containsCL, Bool.or_eq_true]
    constructor
    · rintro (hpre | htail)
      · refine ⟨[], List.drop p.length (c :: cs), ?_⟩
        rw [List.nil_append]
        conv_lhs => rw [← List.take_append_drop p.length (c :: cs)]
        rw [← (isPrefixCL_iff_take p (c :: cs)).mp hpre]
      · rcases ih.mp htail with ⟨u, v, hcs⟩
        exact ⟨c :: u, v, by rw [hcs]; rfl⟩
    · rintro ⟨u, v, huv⟩
      cases u with
      | nil =>
        left
        rw [isPrefixCL_iff_take]
        rw [List.nil_append] at huv
        rw [huv]
        exact (List.take_left p v).symm
      | cons a u' =>
        right
        have hsh : c :: cs = a :: (u' ++ p ++ v) := by rw [huv]; rfl
        injection hsh with h1 h2
        exact ih.mpr ⟨u', v, h2⟩

theorem containsCL_append_self (x p : List Char) :
    containsCL p (x ++ p) = true :=
  (containsCL_iff p (x ++ p)).mpr ⟨x, [], by simp⟩

theorem containsCL_cons_elim {p : List Char} {c : Char} {cs : List Char}
    (h : containsCL p (c :: cs) = false) :
    isPrefixCL p (c :: cs) = false ∧ containsCL p cs = false := by
  have h' := h
  simp only [containsCL, Bool.or_eq_false_iff] at h'
  exact h'

theorem isPrefixCL_append_pat {p x : List Char}
    (hb : ∀ j, 0 < j → j < p.length → isPrefixCL (List.drop j p) p = false)
    (hx : x ≠ []) (hnc : containsCL p x = false) :
    isPrefixCL p (x ++ p) = false := by
  cases hpre : isPrefixCL p (x ++ p) with
  | false => rfl
  | true =>
    exfalso
    have htake := (isPrefixCL_iff_take p (x ++ p)).mp hpre
    by_cases hlen : p.length ≤ x.length
    · rw [List.take_append_eq_append_take,
        Nat.sub_eq_zero_of_le hlen, List.take_zero, List.append_nil] at htake
      have hpx : p = x.take p.length := htake
      have hx2 : x = p ++ x.drop p.length := by
        conv_lhs => rw [← List.take_append_drop p.length x]
        rw [← hpx]
      have hcx : containsCL p x = true :=
        (containsCL_iff p x).mpr ⟨[], x.drop p.length,
          by rw [List.nil_append]; exact hx2⟩
      rw [hcx] at hnc
      exact Bool.noConfusion hnc
    · push_neg at hlen
      rw [List.take_append_eq_append_take,
        List.take_of_length_le (le_of_lt hlen)] at htake
      have hdrop : List.drop x.length p =
          List.take (p.length - x.length) p := by
        conv_lhs => rw [htake]
        rw [List.drop_left]
      have hpt : isPrefixCL (List.drop x.length p) p = true := by
        rw [isPrefixCL_iff_take, hdrop, List.length_take,
          Nat.min_eq_left (Nat.sub_le _ _)]
      rw [hb x.length (List.length_pos.mpr hx) hlen] at hpt
      exact Bool.noConfusion hpt

theorem replaceCL_nil (p r : List Char) : ∀ n, replaceCL p r n [] = []
  | 0 => rfl
  | _ + 1 => rfl

theorem replaceCL_append_pat {p : List Char}
    (hp : p ≠ [])
    (hb : ∀ j, 0 < j → j < p.length → isPrefixCL (List.drop j p) p = false) :
    ∀ (x : List Char) (n : Nat), containsCL p x = false →
      x.length + p.length ≤ n → replaceCL p [] n (x ++ p) = x
  | [], n, _, hn => by
    rw [List.nil_append]
    rcases p with _ | ⟨c, cs⟩
    · exact absurd rfl hp
    · rcases n with _ | m
      · simp only [List.length_nil, List.length_cons, Nat.zero_add] at hn
        omega
      · show replaceCL (c :: cs) [] (m + 1) (c :: cs) = []
        simp only [replaceCL]
        rw [if_pos (isPrefixCL_refl (c :: cs)), List.nil_append,
          List.drop_length, replaceCL_nil]
  | ch :: x', n, hnc, hn => by
    rcases n with _ | m
    · simp only [List.length_cons] at hn
      omega
    · have hx'p : isPrefixCL p ((ch :: x') ++ p) = false :=
        isPrefixCL_append_pat hb (by simp) hnc
      have hpre : isPrefixCL p (ch :: (x' ++ p)) = false := by
        rw [← List.cons_append]
        exact hx'p
      show replaceCL p [] (m + 1) ((ch :: x') ++ p) = ch :: x'
      rw [List.cons_append]
      simp only [replaceCL]
      rw [if_neg (by simp [hpre])]
      have ih := replaceCL_append_pat hp hb x' m (containsCL_cons_elim hnc).2
        (by simp only [List.length_cons] at hn; omega)
      rw [ih]

theorem containsCL_append_of_no_straddle {p x q : List Char}
    (hx : containsCL p x = false) (hq : containsCL p q = false)
    (hs : ∀ j, 0 < j → j < p.length → isPrefixCL (List.drop j p) q = false) :
    containsCL p (x ++ q) = false := by
  cases hc : containsCL p (x ++ q) with
  | false => rfl
  | true =>
    exfalso
    rcases (containsCL_iff p (x ++ q)).mp hc with ⟨u, v, huv⟩
    by_cases h1 : u.length + p.length ≤ x.length
    · have hxt : x = (x ++ q).take x.length := (List.take_left x q).symm
      rw [huv, List.take_append_eq_append_take,
        List.take_append_eq_append_take] at hxt
      rw [List.take_of_length_le (by omega : u.length ≤ x.length),
        List.take_of_length_le
          (by omega : p.length ≤ x.length - u.length)] at hxt
      have hcx : containsCL p x = true :=
        (containsCL_iff p x).mpr
          ⟨u, List.take (x.length - (u ++ p).length) v, hxt⟩
      rw [hcx] at hx
      exact Bool.noConfusion hx
    · by_cases h2 : x.length ≤ u.length
      · have hqd : q = (x ++ q).drop x.length := (List.drop_left x q).symm
        rw [huv, List.drop_append_eq_append_drop,
          List.drop_append_eq_append_drop] at hqd
        have hz : x.length - (u ++ p).length = 0 := by
          simp only [List.length_append]
          omega
        rw [Nat.sub_eq_zero_of_le h2, hz] at hqd
        simp only [List.drop_zero] at hqd
        have hcq : containsCL p q = true :=
          (containsCL_iff p q).mpr ⟨u.drop x.length, v, hqd⟩
        rw [hcq] at hq
        exact Bool.noConfusion hq
      · push_neg at h1 h2
        have hqd : q = (x ++ q).drop x.length := (List.drop_left x q).symm
        rw [huv, List.drop_append_eq_append_drop,
          List.drop_append_eq_append_drop] at hqd
        have hz : x.length - (u ++ p).length = 0 := by
          simp only [List.length_append]
          omega
        rw [List.drop_eq_nil_of_le (le_of_lt h2), List.nil_append, hz,
          List.drop_zero] at hqd
        have hpref : isPrefixCL (List.drop (x.length - u.length) p) q
            = true := by
          rw [isPrefixCL_iff_take, hqd]
          exact (List.take_left _ _).symm
        rw [hs (x.length - u.length) (by omega) (by omega)] at hpref
        exact Bool.noConfusion hpref

theorem length_dropWhile_le (p : α → Bool) : ∀ l : List α,
    (l.dropWhile p).length ≤ l.length
  | [] => le_refl _
  | a :: l => by
    rw [List.dropWhile_cons]
    by_cases hp : p a = true
    · rw [if_pos hp]
      exact le_trans (length_dropWhile_le p l) (by simp)
    · rw [if_neg hp]

theorem dropWhile_head_not {p : α → Bool} {c : α} {cs : List α}
    (h : List.dropWhile p (c :: cs) = c :: cs) : p c = false := by
  cases hp : p c with
  | false => rfl
  | true =>
    rw [List.dropWhile_cons, if_pos hp] at h
    have hlen := congrArg List.length h
    have hle := length_dropWhile_le p cs
    rw [hlen] at hle
    simp only [List.length_cons] at hle
    omega

theorem dropWhile_eq_self_of_head {p : α → Bool} {l : List α}
    (h : ∀ c ∈ l.head?, p c = false) :
    l.dropWhile p = l := by
  cases l with
  | nil => rfl
  | cons c cs =>
    rw [List.dropWhile_cons, h c rfl]
    simp

theorem dropWhile_eq_self_of_length {p : α → Bool} : ∀ {l : List α},
    (l.dropWhile p).length = l.length → l.dropWhile p = l
  | [], _ => rfl
  | c :: cs, h => by
    rw [List.dropWhile_cons] at h ⊢
    by_cases hp : p c = true
    · rw [if_pos hp] at h
      exfalso
      have hle := length_dropWhile_le p cs
      rw [h] at hle
      simp only [List.length_cons] at hle
      omega
    · rw [if_neg hp]

theorem stripChars_eq_self_elim {l : List Char} (h : stripChars l = l) :
    l.dropWhile Char.isWhitespace = l ∧
      l.reverse.dropWhile Char.isWhitespace = l.reverse := by
  have h1 : l.dropWhile Char.isWhitespace = l := by
    apply dropWhile_eq_self_of_length
    have hlen := congrArg List.length h
    have hal : (stripChars l).length ≤
        (l.dropWhile Char.isWhitespace).length := by
      unfold stripChars
      rw [List.length_reverse]
      exact le_trans (length_dropWhile_le _ _)
        (le_of_eq (List.length_reverse _))
    have hbl := length_dropWhile_le Char.isWhitespace l
    omega
  have h2 : l.reverse.dropWhile Char.isWhitespace = l.reverse := by
    have hsc : stripChars l =
        (l.reverse.dropWhile Char.isWhitespace).reverse := by
      unfold stripChars
      rw [h1]
    rw [hsc] at h
    have hrr := congrArg List.reverse h
    rwa [List.reverse_reverse] at hrr
  exact ⟨h1, h2⟩

theorem stripChars_eq_self_of {l : List Char}
    (hh : ∀ c ∈ l.head?, c.isWhitespace = false)
    (hl : ∀ c ∈ l.getLast?, c.isWhitespace = false) :
    stripChars l = l := by
  unfold stripChars
  rw [dropWhile_eq_self_of_head hh]
  rw [dropWhile_eq_self_of_head
    (fun c hc => hl c (by rwa [List.head?_reverse] at hc))]
  exact List.reverse_reverse l

theorem stripChars_head_not_ws {l : List Char} (h : stripChars l = l) :
    ∀ c ∈ l.head?, c.isWhitespace = false := by
  intro c hc
  have h1 := (stripChars_eq_self_elim h).1
  cases l with
  | nil => exact absurd hc (by simp)
  | cons a as =>
    have hac : a = c := by simpa using hc
    subst hac
    exact dropWhile_head_not h1

theorem stripChars_last_not_ws {l : List Char} (h : stripChars l = l) :
    ∀ c ∈ l.getLast?, c.isWhitespace = false := by
  intro c hc
  have h2 := (stripChars_eq_self_elim h).2
  rw [← List.head?_reverse] at hc
  rcases hrev : l.reverse with _ | ⟨a, as⟩
  · rw [hrev] at hc
    exact absurd hc (by simp)
  · rw [hrev] at hc h2
    have hac : a = c := by simpa using hc
    subst hac
    exact dropWhile_head_not h2

theorem strip_eq_self_iff {s : String} :
    strip s = s ↔ stripChars s.data = s.data := by
  constructor
  · intro h
    exact congrArg String.data h
  · intro h
    exact String.ext h

theorem data_append (a b : String) : (a ++ b).data = a.data ++ b.data := rfl

theorem ne_empty_iff_data {s : String} : s ≠ "" ↔ s.data ≠ [] := by
  constructor
  · intro h hd
    exact h (String.ext hd)
  · intro h hd
    rw [hd] at h
    exact h rfl

theorem head?_append_left {a b : List α} (ha : a ≠ []) :
    (a ++ b).head? = a.head? := by
  cases a with
  | nil => exact absurd rfl ha
  | cons c cs => rfl

theorem getLast?_append_right {a b : List α} (hb : b ≠ []) :
    (a ++ b).getLast? = b.getLast? := by
  rw [List.getLast?_append]
  cases h2 : b.getLast? with
  | none => exact absurd (List.getLast?_eq_none_iff.mp h2) hb
  | some x => rfl

theorem string_append_assoc (a b c : String) :
    (a ++ b) ++ c = a ++ (b ++ c) := by
  apply String.ext
  simp only [data_append, List.append_assoc]

theorem marker1_no_border : ∀ j, j < (" | file1".data).length → 0 < j →
    isPrefixCL (List.drop j " | file1".data) " | file1".data = false := by
  decide

theorem marker2_no_border : ∀ j, j < (" | file2".data).length → 0 < j →
    isPrefixCL (List.drop j " | file2".data) " | file2".data = false := by
  decide

theorem marker1_not_in_marker2 :
    containsCL " | file1".data " | file2".data = false := by decide

theorem marker2_not_in_marker1 :
    containsCL " | file2".data " | file1".data = false := by decide

theorem marker1_no_straddle2 : ∀ j, j < (" | file1".data).length → 0 < j →
    isPrefixCL (List.drop j " | file1".data) " | file2".data = false := by
  decide

theorem marker2_no_straddle1 : ∀ j, j < (" | file2".data).length → 0 < j →
    isPrefixCL (List.drop j " | file2".data) " | file1".data = false := by
  decide

theorem pyContains_append_marker (c tag : String) :
    pyContains (c ++ tag) tag = true := by
  unfold pyContains
  rw [data_append]
  exact containsCL_append_self c.data tag.data

theorem pyContains_append_of_clean {c pat q : String}
    (hc : pyContains c pat = false)
    (hq : containsCL pat.data q.data = false)
    (hs : ∀ j, j < pat.data.length → 0 < j →
      isPrefixCL (List.drop j pat.data) q.data = false) :
    pyContains (c ++ q) pat = false := by
  unfold pyContains
  rw [data_append]
  exact containsCL_append_of_no_straddle hc hq (fun j h1 h2 => hs j h2 h1)

theorem pyReplace_append_marker {c pat : String}
    (hp : pat.data ≠ [])
    (hb : ∀ j, j < pat.data.length → 0 < j →
      isPrefixCL (List.drop j pat.data) pat.data = false)
    (hc : pyContains c pat = false) :
    pyReplace (c ++ pat) pat "" = c := by
  apply String.ext
  show replaceCL pat.data [] (c ++ pat).data.length (c ++ pat).data = c.data
  rw [data_append]
  exact replaceCL_append_pat hp (fun j h1 h2 => hb j h2 h1) c.data _ hc
    (le_of_eq (List.length_append _ _).symm)

theorem append_marker_ne_of_not_contains {c d pat : String}
    (hd : pyContains d pat = false) :
    c ++ pat ≠ d := by
  intro h
  rw [← h, pyContains_append_marker] at hd
  exact Bool.noConfusion hd

theorem append_right_inj {c c' pat : String} (h : c ++ pat = c' ++ pat) :
    c = c' := by
  apply String.ext
  have hd := congrArg String.data h
  rw [data_append, data_append] at hd
  exact List.append_cancel_right hd

theorem marker1_ne_marker2 (c c' : String) :
    c ++ " | file1" ≠ c' ++ " | file2" := by
  intro h
  have hd := congrArg (fun s => s.data.getLast?) h
  simp only [data_append] at hd
  rw [getLast?_append_right (by decide), getLast?_append_right (by decide)]
    at hd
  exact absurd hd (by decide)

theorem last_not_ws_of_getLast {l : List Char} (a : Char)
    (hval : l.getLast? = some a) (ha : a.isWhitespace = false) :
    ∀ ch ∈ l.getLast?, ch.isWhitespace = false := by
  intro ch hch
  rw [hval] at hch
  have hac : a = ch := by simpa using hch
  rw [← hac]
  exact ha

theorem filter_not_empty_nan {c tag : String}
    (hne : c ≠ "") (hnan : c ≠ "nan")
    (htag : (tag != "" && tag != "nan") = true) :
    List.filter (fun p => p != "" && p != "nan") [c, tag] = [c, tag] := by
  apply List.filter_eq_self.mpr
  intro a ha
  rcases List.mem_cons.mp ha with rfl | ha2
  · simp [hne, hnan]
  · have ha3 : a = tag := by simpa using ha2
    subst ha3
    exact htag

theorem strip_append_marker {c tag : String}
    (hstrip : strip c = c) (hne : c ≠ "")
    (htag : tag.data ≠ [])
    (hlast : ∀ ch ∈ tag.data.getLast?, ch.isWhitespace = false) :
    strip (c ++ tag) = c ++ tag := by
  apply String.ext
  show stripChars (c ++ tag).data = (c ++ tag).data
  rw [data_append]
  apply stripChars_eq_self_of
  · intro ch hch
    rw [head?_append_left (ne_empty_iff_data.mp hne)] at hch
    exact stripChars_head_not_ws (strip_eq_self_iff.mp hstrip) ch hch
  · intro ch hch
    rw [getLast?_append_right htag] at hch
    exact hlast ch hch

theorem flattenParts_file1 {c : String} (hc : CleanName c) :
    flattenParts [c, "file1"] = c ++ " | file1" := by
  obtain ⟨hstrip, hne, hnan, hm1, hm2⟩ := hc
  unfold flattenParts
  rw [filter_not_empty_nan hne hnan (by decide)]
  have hjoin : joinBar [c, "file1"] = c ++ " | file1" := by
    show c ++ " | " ++ "file1" = c ++ " | file1"
    apply String.ext
    simp only [data_append, List.append_assoc]
    congr 1
  rw [hjoin]
  exact strip_append_marker hstrip hne (by decide)
    (last_not_ws_of_getLast '1' (by decide) (by decide))

theorem flattenParts_file2 {c : String} (hc : CleanName c) :
    flattenParts [c, "file2"] = c ++ " | file2" := by
  obtain ⟨hstrip, hne, hnan, hm1, hm2⟩ := hc
  unfold flattenParts
  rw [filter_not_empty_nan hne hnan (by decide)]
  have hjoin : joinBar [c, "file2"] = c ++ " | file2" := by
    show c ++ " | " ++ "file2" = c ++ " | file2"
    apply String.ext
    simp only [data_append, List.append_assoc]
    congr 1
  rw [hjoin]
  exact strip_append_marker hstrip hne (by decide)
    (last_not_ws_of_getLast '2' (by decide) (by decide))

theorem flattenParts_key {c : String} (hc : CleanName c) :
    flattenParts [c, ""] = c := by
  obtain ⟨hstrip, hne, hnan, _, _⟩ := hc
  have hfc : (c != "" && c != "nan") = true := by simp [hne, hnan]
  unfold flattenParts
  have hfilter : List.filter (fun p => p != "" && p != "nan") [c, ""]
      = [c] := by
    simp [List.filter_cons, hfc]
  rw [hfilter]
  exact hstrip

theorem base_of_marker1 {c : String} (hc : CleanName c) :
    strip (pyReplace (c ++ " | file1") " | file1" "") = c := by
  rw [pyReplace_append_marker (by decide) marker1_no_border hc.2.2.2.1]
  exact hc.1

theorem base_of_marker2 {c : String} (hc : CleanName c) :
    strip (pyReplace (c ++ " | file2") " | file2" "") = c := by
  rw [pyReplace_append_marker (by decide) marker2_no_border hc.2.2.2.2]
  exact hc.1

theorem marker2_free_of_marker1 {c : String} (hc : CleanName c) :
    pyContains (c ++ " | file2") " | file1" = false :=
  pyContains_append_of_clean hc.2.2.2.1 marker1_not_in_marker2
    marker1_no_straddle2

theorem marker1_has_marker1 (c : String) :
    pyContains (c ++ " | file1") " | file1" = true :=
  pyContains_append_marker c " | file1"

theorem marker2_has_marker2 (c : String) :
    pyContains (c ++ " | file2") " | file2" = true :=
  pyContains_append_marker c " | file2"

theorem dictInsert_fresh {d : List (String × String × String)} {k : String}
    (h : ∀ q ∈ d, q.1 ≠ k) (v : String × String) :
    dictInsert d k v = d ++ [(k, v)] := by
  unfold dictInsert
  have hfa : d.any (fun q => q.1 == k) = false := by
    rw [List.any_eq_false]
    intro q hq
    simpa using h q hq
  rw [hfa]
  simp

theorem colPairsStep_file1 {allCols : List String} {c : String}
    (hc : CleanName c) (hmem : allCols.contains (c ++ " | file2") = true)
    (acc : List (String × String × String))
    (hfresh : ∀ q ∈ acc, q.1 ≠ c) :
    colPairsStep allCols acc (c ++ " | file1")
      = acc ++ [(c, c ++ " | file1", c ++ " | file2")] := by
  unfold colPairsStep
  rw [if_pos (marker1_has_marker1 c)]
  dsimp only
  rw [base_of_marker1 hc]
  rw [if_pos hmem]
  exact dictInsert_fresh hfresh _

theorem colPairsStep_file2_skip {allCols : List String} {c : String}
    (hc : CleanName c) (acc : List (String × String × String))
    (hval : (acc.map (fun q => q.2.2)).contains (c ++ " | file2") = true) :
    colPairsStep allCols acc (c ++ " | file2") = acc := by
  unfold colPairsStep
  rw [if_neg (by rw [marker2_free_of_marker1 hc]; simp)]
  rw [if_neg (by rw [marker2_has_marker2 c, hval]; simp)]

theorem colPairs_fold {allCols : List String} :
    ∀ (pend : List String) (acc : List (String × String × String)),
      pend.Nodup →
      (∀ c ∈ pend, CleanName c) →
      (∀ c ∈ pend, allCols.contains (c ++ " | file2") = true) →
      (∀ c ∈ pend, ∀ q ∈ acc, q.1 ≠ c) →
      ((pend.map (fun c => [c ++ " | file1", c ++ " | file2"])).flatten).foldl
          (colPairsStep allCols) acc
        = acc ++ pend.map (fun c => (c, c ++ " | file1", c ++ " | file2"))
  | [], acc, _, _, _, _ => by simp
  | c :: pend', acc, hnd, hcl, hmem, hfresh => by
    rcases List.nodup_cons.mp hnd with ⟨hcnot, hnd'⟩
    have hcc := hcl c (List.mem_cons_self _ _)
    rw [List.map_cons, List.flatten_cons]
    simp only [List.cons_append, List.nil_append]
    rw [List.foldl_cons, List.foldl_cons]
    rw [colPairsStep_file1 hcc (hmem c (List.mem_cons_self _ _)) acc
      (hfresh c (List.mem_cons_self _ _))]
    have hval : (((acc ++ [(c, c ++ " | file1", c ++ " | file2")]).map
        (fun q => q.2.2)).contains (c ++ " | file2")) = true := by
      apply contains_iff_mem.mpr
      rw [List.map_append]
      apply List.mem_append_right
      simp
    rw [colPairsStep_file2_skip hcc _ hval]
    have hfr : ∀ d ∈ pend',
        ∀ q ∈ acc ++ [(c, c ++ " | file1", c ++ " | file2")], q.1 ≠ d := by
      intro d hd q hq
      rcases List.mem_append.mp hq with hq1 | hq2
      · exact hfresh d (List.mem_cons_of_mem _ hd) q hq1
      · have hqc : q = (c, c ++ " | file1", c ++ " | file2") := by
          simpa using hq2
        rw [hqc]
        intro hdc
        have hdc2 : c = d := hdc
        exact hcnot (by rw [hdc2]; exact hd)
    rw [colPairs_fold pend' (acc ++ [(c, c ++ " | file1", c ++ " | file2")])
      hnd' (fun d hd => hcl d (List.mem_cons_of_mem _ hd))
      (fun d hd => hmem d (List.mem_cons_of_mem _ hd)) hfr]
    rw [List.append_assoc]
    rfl

theorem flattenedCols_clean {t1 t2 : Table} {key : String}
    (hk : CleanName key)
    (hcl : ∀ c ∈ keptCols t1 t2 key, CleanName c) :
    flattenedCols t1 t2 key =
      key :: ((keptCols t1 t2 key).map
        (fun c => [c ++ " | file1", c ++ " | file2"])).flatten := by
  unfold flattenedCols
  rw [flattenParts_key hk]
  congr 1
  apply congrArg List.flatten
  apply List.map_congr_left
  intro c hcK
  rw [flattenParts_file1 (hcl c hcK), flattenParts_file2 (hcl c hcK)]

theorem filter_ne_key_flattened {key : String} {K : List String}
    (hk : CleanName key) :
    ((key :: (K.map (fun c =>
        [c ++ " | file1", c ++ " | file2"])).flatten).filter
      (fun c => c ≠ key)) =
      (K.map (fun c => [c ++ " | file1", c ++ " | file2"])).flatten := by
  rw [List.filter_cons]
  rw [if_neg (by simp)]
  apply List.filter_eq_self.mpr
  intro a ha
  rcases List.mem_flatten.mp ha with ⟨l, hl, hal⟩
  rcases List.mem_map.mp hl with ⟨c, hcK, hshape⟩
  rw [← hshape] at hal
  have hsplit : a = c ++ " | file1" ∨ a = c ++ " | file2" := by
    rcases List.mem_cons.mp hal with h | h
    · exact Or.inl h
    · exact Or.inr (by simpa using h)
  rcases hsplit with rfl | rfl
  · exact decide_eq_true (append_marker_ne_of_not_contains hk.2.2.2.1)
  · exact decide_eq_true (append_marker_ne_of_not_contains hk.2.2.2.2)

theorem colPairs_flattened {t1 t2 : Table} {key : String}
    (hk : CleanName key)
    (hcl : ∀ c ∈ keptCols t1 t2 key, CleanName c) :
    colPairs (flattenedCols t1 t2 key) key =
      (keptCols t1 t2 key).map
        (fun c => (c, c ++ " | file1", c ++ " | file2")) := by
  have hnd : (keptCols t1 t2 key).Nodup :=
    (nodup_compareCols t1 t2 key).filter _
  have hflc := flattenedCols_clean hk hcl
  have hmem : ∀ c ∈ keptCols t1 t2 key,
      (key :: ((keptCols t1 t2 key).map
        (fun c => [c ++ " | file1", c ++ " | file2"])).flatten).contains
        (c ++ " | file2") = true := by
    intro c hcK
    apply contains_iff_mem.mpr
    apply List.mem_cons_of_mem
    apply List.mem_flatten.mpr
    exact ⟨[c ++ " | file1", c ++ " | file2"],
      List.mem_map.mpr ⟨c, hcK, rfl⟩, by simp⟩
  unfold colPairs
  rw [hflc, filter_ne_key_flattened hk]
  rw [colPairs_fold (keptCols t1 t2 key) [] hnd hcl hmem
    (fun c _ q hq => absurd hq (List.not_mem_nil q))]
  rw [List.nil_append]

theorem lookup_cons_pos [BEq α] {a k : α} {b : β} {es : List (α × β)}
    (h : (a == k) = true) : List.lookup a ((k, b) :: es) = some b := by
  simp [List.lookup, h]

theorem lookup_cons_neg [BEq α] {a k : α} {b : β} {es : List (α × β)}
    (h : (a == k) = false) :
    List.lookup a ((k, b) :: es) = List.lookup a es := by
  simp [List.lookup, h]

theorem lookup_pairRow_file1 (g : String → Cell × Cell) :
    ∀ (K : List String) {c : String}, c ∈ K →
      List.lookup (c ++ " | file1")
        ((K.map (fun d => [(d ++ " | file1", (g d).1),
          (d ++ " | file2", (g d).2)])).flatten)
        = some (g c).1
  | [], c, hc => absurd hc (List.not_mem_nil _)
  | d :: K', c, hc => by
    rw [List.map_cons, List.flatten_cons]
    simp only [List.cons_append, List.nil_append]
    by_cases he : c = d
    · subst he
      rw [lookup_cons_pos (by simp)]
    · rw [lookup_cons_neg (beq_eq_false_iff_ne.mpr
        (fun h => he (append_right_inj h)))]
      rw [lookup_cons_neg (beq_eq_false_iff_ne.mpr (marker1_ne_marker2 c d))]
      exact lookup_pairRow_file1 g K' ((List.mem_cons.mp hc).resolve_left he)

theorem lookup_pairRow_file2 (g : String → Cell × Cell) :
    ∀ (K : List String) {c : String}, c ∈ K →
      List.lookup (c ++ " | file2")
        ((K.map (fun d => [(d ++ " | file1", (g d).1),
          (d ++ " | file2", (g d).2)])).flatten)
        = some (g c).2
  | [], c, hc => absurd hc (List.not_mem_nil _)
  | d :: K', c, hc => by
    rw [List.map_cons, List.flatten_cons]
    simp only [List.cons_append, List.nil_append]
    rw [lookup_cons_neg (beq_eq_false_iff_ne.mpr
      (fun h => marker1_ne_marker2 d c h.symm))]
    by_cases he : c = d
    · subst he
      rw [lookup_cons_pos (by simp)]
    · rw [lookup_cons_neg (beq_eq_false_iff_ne.mpr
        (fun h => he (append_right_inj h)))]
      exact lookup_pairRow_file2 g K' ((List.mem_cons.mp hc).resolve_left he)

theorem getCell_flattenedRow_key {t1 t2 : Table} {key : String} (k : Cell)
    (hk : CleanName key) :
    getCell (flattenedRow t1 t2 key k) key = k := by
  unfold getCell flattenedRow
  rw [flattenParts_key hk]
  rw [lookup_cons_pos (by simp)]
  rfl

theorem getCell_flattenedRow_file1 {t1 t2 : Table} {key : String} {k : Cell}
    {c : String} (hk : CleanName key)
    (hcl : ∀ d ∈ keptCols t1 t2 key, CleanName d)
    (hc : c ∈ keptCols t1 t2 key) :
    getCell (flattenedRow t1 t2 key k) (c ++ " | file1")
      = (maskedPair t1 t2 key k c).1 := by
  unfold getCell flattenedRow
  rw [flattenParts_key hk]
  rw [lookup_cons_neg (beq_eq_false_iff_ne.mpr
    (append_marker_ne_of_not_contains hk.2.2.2.1))]
  have hlab : ((keptCols t1 t2 key).map (fun d =>
      [(flattenParts [d, "file1"], (maskedPair t1 t2 key k d).1),
       (flattenParts [d, "file2"], (maskedPair t1 t2 key k d).2)])) =
      ((keptCols t1 t2 key).map (fun d =>
      [(d ++ " | file1", (maskedPair t1 t2 key k d).1),
       (d ++ " | file2", (maskedPair t1 t2 key k d).2)])) := by
    apply List.map_congr_left
    intro d hd
    rw [flattenParts_file1 (hcl d hd), flattenParts_file2 (hcl d hd)]
  rw [hlab]
  rw [lookup_pairRow_file1 (fun d => maskedPair t1 t2 key k d)
    (keptCols t1 t2 key) hc]
  rfl

theorem getCell_flattenedRow_file2 {t1 t2 : Table} {key : String} {k : Cell}
    {c : String} (hk : CleanName key)
    (hcl : ∀ d ∈ keptCols t1 t2 key, CleanName d)
    (hc : c ∈ keptCols t1 t2 key) :
    getCell (flattenedRow t1 t2 key k) (c ++ " | file2")
      = (maskedPair t1 t2 key k c).2 := by
  unfold getCell flattenedRow
  rw [flattenParts_key hk]
  rw [lookup_cons_neg (beq_eq_false_iff_ne.mpr
    (append_marker_ne_of_not_contains hk.2.2.2.2))]
  have hlab : ((keptCols t1 t2 key).map (fun d =>
      [(flattenParts [d, "file1"], (maskedPair t1 t2 key k d).1),
       (flattenParts [d, "file2"], (maskedPair t1 t2 key k d).2)])) =
      ((keptCols t1 t2 key).map (fun d =>
      [(d ++ " | file1", (maskedPair t1 t2 key k d).1),
       (d ++ " | file2", (maskedPair t1 t2 key k d).2)])) := by
    apply List.map_congr_left
    intro d hd
    rw [flattenParts_file1 (hcl d hd), flattenParts_file2 (hcl d hd)]
  rw [hlab]
  rw [lookup_pairRow_file2 (fun d => maskedPair t1 t2 key k d)
    (keptCols t1 t2 key) hc]
  rfl

theorem rowToModified_column_mem {key : String}
    {pairs : List (String × String × String)} {row : Row} {m : ModRecord}
    (hm : rowToModified key pairs row = some m) {ch : FieldChange}
    (hch : ch ∈ m.changes) : ∃ q ∈ pairs, ch.column = q.1 := by
  unfold rowToModified at hm
  dsimp only at hm
  split at hm
  · exact absurd hm (by simp)
  · have hmc : m.changes = pairs.filterMap (fun q =>
        if ((getCell row q.2.1).map strip ==
            (getCell row q.2.2).map strip) = true then none
        else some (⟨q.1, (getCell row q.2.1).map strip,
          (getCell row q.2.2).map strip⟩ : FieldChange)) := by
      rw [← Option.some.inj hm]
    rw [hmc] at hch
    rcases List.mem_filterMap.mp hch with ⟨q, hq, hg⟩
    refine ⟨q, hq, ?_⟩
    split at hg
    · exact absurd hg (by simp)
    · rw [← Option.some.inj hg]

theorem keptCols_clean {t1 t2 : Table} {key : String}
    (hc1 : CleanCols t1) :
    ∀ d ∈ keptCols t1 t2 key, CleanName d := by
  intro d hd
  exact hc1 d (mem_commonCols.mp (mem_compareCols.mp
    (List.mem_filter.mp hd).1).1).1

theorem keyedModified_eq_direct {t1 t2 : Table} {key : String}
    (h1 : NormTable t1) (h2 : NormTable t2)
    (hc1 : CleanCols t1) (hk : CleanName key) :
    keyedModified t1 t2 key =
      (commonKeys t1 t2 key).filterMap (fun k =>
        if (directChanges t1 t2 key k).isEmpty then none
        else some ⟨idString k, directChanges t1 t2 key k⟩) := by
  have hcl : ∀ d ∈ keptCols t1 t2 key, CleanName d := keptCols_clean hc1
  have hinner : ∀ k ∈ commonKeys t1 t2 key,
      ((keptCols t1 t2 key).filterMap (fun c =>
        if ((maskedPair t1 t2 key k c).1.map strip ==
            (maskedPair t1 t2 key k c).2.map strip) = true then none
        else some (⟨c, (maskedPair t1 t2 key k c).1.map strip,
          (maskedPair t1 t2 key k c).2.map strip⟩ : FieldChange)))
        = directChanges t1 t2 key k := by
    intro k hkk
    unfold keptCols directChanges
    apply filterMap_filter_congr
    · intro c _ _
      dsimp only
      by_cases hcmp : cellEqCmp (getCell (rowOfKey t1 key k) c)
          (getCell (rowOfKey t2 key k) c) = true
      · have hmp : maskedPair t1 t2 key k c = (none, none) := by
          unfold maskedPair
          rw [if_pos hcmp]
        rw [hmp, if_pos hcmp]
        rw [if_pos (by rfl)]
      · have hmp : maskedPair t1 t2 key k c =
            (getCell (rowOfKey t1 key k) c, getCell (rowOfKey t2 key k) c) := by
          unfold maskedPair
          rw [if_neg hcmp]
        rw [hmp, if_neg hcmp]
        have hn1 := (normTable_rowOfKey h1 key k c).map_strip
        have hn2 := (normTable_rowOfKey h2 key k c).map_strip
        have hne : ((getCell (rowOfKey t1 key k) c,
              getCell (rowOfKey t2 key k) c).1.map strip ==
            (getCell (rowOfKey t1 key k) c,
              getCell (rowOfKey t2 key k) c).2.map strip) = false := by
          show ((getCell (rowOfKey t1 key k) c).map strip ==
            (getCell (rowOfKey t2 key k) c).map strip) = false
          rw [hn1, hn2]
          exact beq_eq_false_iff_ne.mpr
            (ne_of_cellEqCmp_false (Bool.not_eq_true _ ▸ hcmp))
        rw [if_neg (by simp [hne])]
        show some (⟨c, (getCell (rowOfKey t1 key k) c).map strip,
          (getCell (rowOfKey t2 key k) c).map strip⟩ : FieldChange) = _
        rw [hn1, hn2]
    · intro c _ hp
      have hall := List.any_eq_false.mp hp
      have hcmp : cellEqCmp (getCell (rowOfKey t1 key k) c)
          (getCell (rowOfKey t2 key k) c) = true := by
        have hkc := hall k hkk
        cases h' : cellDiffAt t1 t2 key k c
        · unfold cellDiffAt at h'
          simpa using h'
        · exact absurd h' hkc
      simp [hcmp]
  unfold keyedModified changedToModified changedDf
  dsimp only
  rw [List.filterMap_map]
  unfold keptKeys
  apply filterMap_filter_congr
  · intro k hkk _
    simp only [Function.comp_apply]
    unfold rowToModified
    rw [colPairs_flattened hk hcl, List.filterMap_map]
    dsimp only
    have step1 : (keptCols t1 t2 key).filterMap
        ((fun q : String × String × String =>
          if ((getCell (flattenedRow t1 t2 key k) q.2.1).map strip ==
              (getCell (flattenedRow t1 t2 key k) q.2.2).map strip) = true
          then none
          else some (⟨q.1, (getCell (flattenedRow t1 t2 key k) q.2.1).map strip,
            (getCell (flattenedRow t1 t2 key k) q.2.2).map strip⟩
              : FieldChange)) ∘
          (fun c => (c, c ++ " | file1", c ++ " | file2"))) =
        (keptCols t1 t2 key).filterMap (fun c =>
          if ((maskedPair t1 t2 key k c).1.map strip ==
              (maskedPair t1 t2 key k c).2.map strip) = true then none
          else some (⟨c, (maskedPair t1 t2 key k c).1.map strip,
            (maskedPair t1 t2 key k c).2.map strip⟩ : FieldChange)) := by
      apply List.filterMap_congr
      intro c hcK
      simp only [Function.comp_apply]
      rw [getCell_flattenedRow_file1 hk hcl hcK,
        getCell_flattenedRow_file2 hk hcl hcK]
    rw [step1, hinner k hkk, getCell_flattenedRow_key k hk]
  · intro k hkk hq
    have hall := List.any_eq_false.mp hq
    have hnil : directChanges t1 t2 key k = [] := by
      rw [directChanges_eq_nil_iff]
      intro c hc
      have hkc := hall c hc
      cases h' : cellDiffAt t1 t2 key k c
      · rfl
      · exact absurd h' hkc
    simp [hnil]

theorem exists_dup_iff_not_nodup [BEq α] [LawfulBEq α] {l : List α} :
    (∃ v, 2 ≤ List.count v l) ↔ ¬ l.Nodup := by
  rw [nodup_iff_count_le_one_beq]
  push_neg
  exact ⟨fun ⟨v, hv⟩ => ⟨v, by omega⟩, fun ⟨v, hv⟩ => ⟨v, by omega⟩⟩

theorem missing_exists_iff {t : Table} {key : String} :
    (∃ r ∈ t.rows, getCell r key = none) ↔
      ¬ ((t.rows.filter (fun r => (getCell r key).isNone)).isEmpty = true) := by
  rw [missing_isEmpty_iff]
  push_neg
  constructor
  · rintro ⟨r, hr, hn⟩
    exact ⟨r, hr, by simp [hn]⟩
  · rintro ⟨r, hr, hn⟩
    refine ⟨r, hr, ?_⟩
    cases h : getCell r key
    · rfl
    · exact absurd (by simp [h]) hn

theorem validator_notFound_iff {t : Table} {key label : String} :
    validatePrimaryKey t key label = .error (.keyNotFound label key t.cols) ↔
      key ∉ t.cols := by
  unfold validatePrimaryKey
  by_cases h1 : t.cols.contains key = true
  · rw [if_neg (by simpa using h1)]
    constructor
    · intro hc
      by_cases h2 : (t.rows.filter (fun r => (getCell r key).isNone)).isEmpty = true
      · rw [if_neg (by simpa using h2)] at hc
        by_cases h3 : (((keysOf t key).filter
            (fun v => decide (2 ≤ (keysOf t key).count v))).take 10).isEmpty = true
        · rw [if_neg (by simpa using h3)] at hc
          exact absurd hc (by simp)
        · rw [if_pos (by simpa using h3)] at hc
          exact absurd hc (by simp)
      · rw [if_pos (by simpa using h2)] at hc
        exact absurd hc (by simp)
    · intro hm
      exact absurd (contains_iff_mem.mp h1) hm
  · rw [if_pos (by simpa using h1)]
    constructor
    · intro _
      exact fun hm => h1 (contains_iff_mem.mpr hm)
    · intro _
      rfl

theorem validator_missing_iff {t : Table} {key label : String} :
    validatePrimaryKey t key label =
        .error (.keyHasMissingValues label key
          ((t.rows.filter (fun r => (getCell r key).isNone)).take 5)) ↔
      (key ∈ t.cols ∧ ∃ r ∈ t.rows, getCell r key = none) := by
  unfold validatePrimaryKey
  by_cases h1 : t.cols.contains key = true
  · rw [if_neg (by simpa using h1)]
    by_cases h2 : (t.rows.filter (fun r => (getCell r key).isNone)).isEmpty = true
    · rw [if_neg (by simpa using h2)]
      constructor
      · intro hc
        by_cases h3 : (((keysOf t key).filter
            (fun v => decide (2 ≤ (keysOf t key).count v))).take 10).isEmpty = true
        · rw [if_neg (by simpa using h3)] at hc
          exact absurd hc (by simp)
        · rw [if_pos (by simpa using h3)] at hc
          exact absurd hc (by simp)
      · intro hc
        exact absurd (missing_exists_iff.mp hc.2) (by simpa using h2)
    · rw [if_pos (by simpa using h2)]
      constructor
      · intro _
        exact ⟨contains_iff_mem.mp h1, missing_exists_iff.mpr (by simpa using h2)⟩
      · intro _
        rfl
  · rw [if_pos (by simpa using h1)]
    constructor
    · intro hc
      exact absurd hc (by simp)
    · intro hc
      exact absurd (contains_iff_mem.mpr hc.1) (by simpa using h1)

theorem validator_dup_iff {t : Table} {key label : String} :
    validatePrimaryKey t key label =
        .error (.keyNotUnique label key
          (((keysOf t key).filter
            (fun v => decide (2 ≤ (keysOf t key).count v))).take 10)) ↔
      (key ∈ t.cols ∧ (∀ r ∈ t.rows, (getCell r key).isSome) ∧
        ∃ v, 2 ≤ (keysOf t key).count v) := by
  unfold validatePrimaryKey
  by_cases h1 : t.cols.contains key = true
  · rw [if_neg (by simpa using h1)]
    by_cases h2 : (t.rows.filter (fun r => (getCell r key).isNone)).isEmpty = true
    · rw [if_neg (by simpa using h2)]
      by_cases h3 : (((keysOf t key).filter
          (fun v => decide (2 ≤ (keysOf t key).count v))).take 10).isEmpty = true
      · rw [if_neg (by simpa using h3)]
        constructor
        · intro hc
          exact absurd hc (by simp)
        · intro hc
          exact absurd hc.2.2 (fun hd =>
            (exists_dup_iff_not_nodup.mp hd) (dupes_isEmpty_iff.mp h3))
      · rw [if_pos (by simpa using h3)]
        constructor
        · intro _
          refine ⟨contains_iff_mem.mp h1, missing_isEmpty_iff.mp h2, ?_⟩
          exact exists_dup_iff_not_nodup.mpr
            (fun hnd => h3 (dupes_isEmpty_iff.mpr hnd))
        · intro _
          rfl
    · rw [if_pos (by simpa using h2)]
      constructor
      · intro hc
        exact absurd hc (by simp)
      · intro hc
        rcases missing_exists_iff.mpr (by simpa using h2) with ⟨r, hr, hn⟩
        have := hc.2.1 r hr
        rw [hn] at this
        exact absurd this (by simp)
  · rw [if_pos (by simpa using h1)]
    constructor
    · intro hc
      exact absurd hc (by simp)
    · intro hc
      exact absurd (contains_iff_mem.mpr hc.1) (by simpa using h1)

/-! ## Claim theorems -/

/-- **C2**: comparing a normalized table with itself — in positional mode, or
in keyed mode with a key column that is present, non-missing and unique —
yields empty added rows, empty removed rows and empty modified rows. -/
theorem self_comparison_empty (t : Table) (key label : String) :
    (posAdded t t = [] ∧ posRemoved t t = [] ∧ posModified t t = []) ∧
    (validatePrimaryKey t key label = .ok () →
      keyedAdded t t key = [] ∧ keyedRemoved t t key = [] ∧
        keyedModified t t key = []) := by
  constructor
  · refine ⟨?_, ?_, ?_⟩
    · unfold posAdded
      simp
    · unfold posRemoved
      simp
    · unfold posModified
      rw [List.filterMap_eq_nil_iff]
      intro i _
      have hch : ∀ r : Row, posRowChanges (commonCols t t) r r = [] := by
        intro r
        unfold posRowChanges
        rw [List.filterMap_eq_nil_iff]
        intro c _
        have hsame : posCellSame (getCell r c) (getCell r c) = true := by
          cases hv : getCell r c <;> simp [posCellSame]
        simp [hsame]
      simp [hch]
  · intro _
    have hself : ∀ key', ((keysOf t key').filter
        (fun k => ¬ (keysOf t key').contains k)).dedup = [] := by
      intro key'
      rw [List.dedup_eq_nil, List.filter_eq_nil_iff]
      intro k hk
      simp [contains_iff_mem, hk]
    refine ⟨?_, ?_, ?_⟩
    · unfold keyedAdded addedKeys sortCells
      rw [hself key]
      rfl
    · unfold keyedRemoved removedKeys sortCells
      rw [hself key]
      rfl
    · have hkk : keptKeys t t key = [] := by
        unfold keptKeys
        rw [List.filter_eq_nil_iff]
        intro k _
        have hany : (compareCols t t key).any
            (fun c => cellDiffAt t t key k c) = false := by
          rw [List.any_eq_false]
          intro c _
          unfold cellDiffAt
          simp [cellEqCmp_refl]
        simp [hany]
      unfold keyedModified changedToModified changedDf
      rw [hkk]
      rfl


/-- **C6**: the Key Validator fails with key-not-found iff the key column is
absent; otherwise fails with missing-values iff some row's key cell is
missing, carrying up to 5 sample offending rows; otherwise fails with
non-uniqueness iff some key value repeats, carrying up to 10 duplicate
values; and succeeds otherwise. -/
theorem validator_taxonomy (t : Table) (key label : String) :
    (validatePrimaryKey t key label =
        .error (.keyNotFound label key t.cols) ↔ key ∉ t.cols) ∧
    (validatePrimaryKey t key label =
        .error (.keyHasMissingValues label key
          ((t.rows.filter (fun r => (getCell r key).isNone)).take 5)) ↔
      (key ∈ t.cols ∧ ∃ r ∈ t.rows, getCell r key = none)) ∧
    ((t.rows.filter (fun r => (getCell r key).isNone)).take 5).length ≤ 5 ∧
    (∀ r ∈ (t.rows.filter (fun r => (getCell r key).isNone)).take 5,
      r ∈ t.rows ∧ getCell r key = none) ∧
    (validatePrimaryKey t key label =
        .error (.keyNotUnique label key
          (((keysOf t key).filter
            (fun v => decide (2 ≤ (keysOf t key).count v))).take 10)) ↔
      (key ∈ t.cols ∧ (∀ r ∈ t.rows, (getCell r key).isSome) ∧
        ∃ v, 2 ≤ (keysOf t key).count v)) ∧
    ((((keysOf t key).filter
        (fun v => decide (2 ≤ (keysOf t key).count v))).take 10).length ≤ 10) ∧
    (∀ v ∈ ((keysOf t key).filter
        (fun v => decide (2 ≤ (keysOf t key).count v))).take 10,
      2 ≤ (keysOf t key).count v) ∧
    (validatePrimaryKey t key label = .ok () ↔
      (key ∈ t.cols ∧ (∀ r ∈ t.rows, (getCell r key).isSome) ∧
        (keysOf t key).Nodup)) := by
  refine ⟨validator_notFound_iff, validator_missing_iff, ?_, ?_,
    validator_dup_iff, ?_, ?_, validatePrimaryKey_ok_iff⟩
  · rw [List.length_take]
    exact inf_le_left
  · intro r hr
    have hm := (List.take_sublist 5 _).subset hr
    rcases List.mem_filter.mp hm with ⟨hrow, hnone⟩
    exact ⟨hrow, by simpa using hnone⟩
  · rw [List.length_take]
    exact inf_le_left
  · intro v hv
    have hm := (List.take_sublist 10 _).subset hv
    rcases List.mem_filter.mp hm with ⟨_, hcnt⟩
    simpa using hcnt

/-- **C7**: in keyed mode both tables are validated before any diff is
computed; the left table is validated first, and a left-table failure is
reported alone, whatever the right table contains. -/
theorem keyed_validation_protocol (t1 t2 : Table) (key : String) :
    (∀ e, validatePrimaryKey t1 key "file1" = .error e →
        runKeyedComparison t1 t2 key = .error e) ∧
    (∀ e, validatePrimaryKey t1 key "file1" = .ok () →
        validatePrimaryKey t2 key "file2" = .error e →
        runKeyedComparison t1 t2 key = .error e) ∧
    (∀ r, runKeyedComparison t1 t2 key = .ok r →
        validatePrimaryKey t1 key "file1" = .ok () ∧
        validatePrimaryKey t2 key "file2" = .ok () ∧
        r = getComparisonForFrontend t1 t2 key) := by
  refine ⟨?_, ?_, ?_⟩
  · intro e he
    unfold runKeyedComparison
    rw [he]
  · intro e h1 h2
    unfold runKeyedComparison
    rw [h1, h2]
  · intro r hr
    unfold runKeyedComparison at hr
    cases hv1 : validatePrimaryKey t1 key "file1" with
    | error e =>
      rw [hv1] at hr
      exact absurd hr (by simp)
    | ok u =>
      cases u
      rw [hv1] at hr
      cases hv2 : validatePrimaryKey t2 key "file2" with
      | error e =>
        rw [hv2] at hr
        exact absurd hr (by simp)
      | ok u2 =>
        cases u2
        rw [hv2] at hr
        exact ⟨rfl, rfl, (by simpa using hr.symm)⟩

/-- **C10**: in the positional diff, two tables with no common column produce
no added and no removed rows at all, whatever the row counts. -/
theorem no_common_columns_no_tail_rows (t1 t2 : Table)
    (h : ∀ c, ¬ (c ∈ t1.cols ∧ c ∈ t2.cols)) :
    posAdded t1 t2 = [] ∧ posRemoved t1 t2 = [] ∧
    (getComparisonForFrontendByPosition t1 t2).added_rows = [] ∧
    (getComparisonForFrontendByPosition t1 t2).removed_rows = [] := by
  have hc : commonCols t1 t2 = [] := by
    rw [List.eq_nil_iff_forall_not_mem]
    intro c hcm
    exact h c (mem_commonCols.mp hcm)
  have ha : posAdded t1 t2 = [] := by
    unfold posAdded
    rw [hc]
    simp
  have hr : posRemoved t1 t2 = [] := by
    unfold posRemoved
    rw [hc]
    simp
  refine ⟨ha, hr, ?_, ?_⟩
  · show ((posAdded t1 t2).map renderPosRow) = []
    rw [ha]
    rfl
  · show ((posRemoved t1 t2).map renderPosRow) = []
    rw [hr]
    rfl


theorem contains_eq_of_perm [BEq α] [LawfulBEq α] {l l' : List α}
    (h : l.Perm l') (a : α) : l.contains a = l'.contains a := by
  rw [Bool.eq_iff_iff, contains_iff_mem, contains_iff_mem]
  exact h.mem_iff

theorem sortedFilterDedup_invariant (p q : String → Bool)
    {l l' : List String} (hl : l'.Perm l) (hpq : ∀ c, p c = q c) :
    sortStrings (l'.dedup.filter p) = sortStrings (l.dedup.filter q) := by
  rw [List.filter_congr (fun c _ => hpq c)]
  exact sortLe_eq_of_perm strLe_total strLe_trans strLe_antisymm
    ((hl.dedup).filter q)

theorem fst_mem_of_mem_projectRow {cs : List String} {r : Row}
    {p : String × Cell} (hp : p ∈ projectRow cs r) : p.1 ∈ cs := by
  rcases List.mem_map.mp hp with ⟨c, hc, rfl⟩
  exact hc

theorem keyedModified_column_mem {t1 t2 : Table} {key : String}
    (hc1 : CleanCols t1) (hk : CleanName key)
    {m : ModRecord} {ch : FieldChange}
    (hm : m ∈ keyedModified t1 t2 key) (hch : ch ∈ m.changes) :
    ch.column ∈ compareCols t1 t2 key := by
  have hcl : ∀ d ∈ keptCols t1 t2 key, CleanName d := keptCols_clean hc1
  unfold keyedModified changedToModified at hm
  rcases List.mem_filterMap.mp hm with ⟨row, hrow, hf⟩
  have hpairs : colPairs (changedDf t1 t2 key).cols key =
      (keptCols t1 t2 key).map
        (fun c => (c, c ++ " | file1", c ++ " | file2")) := by
    show colPairs (flattenedCols t1 t2 key) key = _
    exact colPairs_flattened hk hcl
  rw [hpairs] at hf
  rcases rowToModified_column_mem hf hch with ⟨q, hq, hcol⟩
  rcases List.mem_map.mp hq with ⟨c, hcK, hshape⟩
  rw [hcol, ← hshape]
  exact (List.mem_filter.mp hcK).1

theorem column_mem_of_posModified {t1 t2 : Table}
    {m : PosRecord} {ch : FieldChange}
    (hm : m ∈ posModified t1 t2) (hch : ch ∈ m.changes) :
    ch.column ∈ commonCols t1 t2 := by
  unfold posModified at hm
  rcases List.mem_filterMap.mp hm with ⟨i, _, hf⟩
  dsimp only at hf
  split at hf
  · exact absurd hf (by simp)
  · have hmc : m.changes = posRowChanges (commonCols t1 t2)
        (t1.rows.getD i []) (t2.rows.getD i []) := by
      rw [← Option.some.inj hf]
    rw [hmc] at hch
    unfold posRowChanges at hch
    rcases List.mem_filterMap.mp hch with ⟨c, hc, hg⟩
    dsimp only at hg
    split at hg
    · exact absurd hg (by simp)
    · rw [← Option.some.inj hg]
      exact hc

theorem filterMap_ext {f g : α → Option β} (h : ∀ a, f a = g a)
    (l : List α) : l.filterMap f = l.filterMap g :=
  congrArg (fun fn => List.filterMap fn l) (funext h)

theorem isEmpty_map (f : α → β) (l : List α) :
    (l.map f).isEmpty = l.isEmpty := by
  cases l <;> rfl

theorem posRowChanges_swap (common : List String) (r1 r2 : Row) :
    posRowChanges common r2 r1 =
      (posRowChanges common r1 r2).map swapFieldChange := by
  unfold posRowChanges
  rw [List.map_filterMap]
  apply filterMap_ext
  intro c
  dsimp only
  rw [posCellSame_comm]
  by_cases hs : posCellSame (getCell r1 c) (getCell r2 c) = true
  · rw [if_pos hs, if_pos hs]
    rfl
  · rw [if_neg hs, if_neg hs]
    rfl

theorem directChanges_swap (t1 t2 : Table) (key : String) (k : Cell) :
    directChanges t2 t1 key k =
      (directChanges t1 t2 key k).map swapFieldChange := by
  unfold directChanges
  rw [compareCols_comm t2 t1, List.map_filterMap]
  apply filterMap_ext
  intro c
  dsimp only
  rw [cellEqCmp_comm]
  by_cases hs : cellEqCmp (getCell (rowOfKey t1 key k) c)
      (getCell (rowOfKey t2 key k) c) = true
  · rw [if_pos hs, if_pos hs]
    rfl
  · rw [if_neg hs, if_neg hs]
    rfl

theorem commonKeys_perm (t1 t2 : Table) (key : String) :
    (commonKeys t2 t1 key).Perm (commonKeys t1 t2 key) := by
  apply List.perm_of_nodup_nodup_toFinset_eq
    (nodup_commonKeys t2 t1 key) (nodup_commonKeys t1 t2 key)
  ext k
  simp only [List.mem_toFinset, mem_commonKeys]
  tauto

theorem directChanges_column {t1 t2 : Table} {key : String} {k : Cell}
    {c : String} {ch : FieldChange}
    (h : (fun c =>
        let v1 := getCell (rowOfKey t1 key k) c
        let v2 := getCell (rowOfKey t2 key k) c
        if cellEqCmp v1 v2 then none
        else some (⟨c, v1, v2⟩ : FieldChange)) c = some ch) :
    ch.column = c := by
  dsimp only at h
  split at h
  · exact absurd h (by simp)
  · rw [← Option.some.inj h]

theorem changesForId_eq_direct {t1 t2 : Table} {key label1 label2 : String}
    (h1 : NormTable t1) (h2 : NormTable t2)
    (hc1 : CleanCols t1) (hkey : CleanName key)
    (hv1 : validatePrimaryKey t1 key label1 = .ok ())
    (hv2 : validatePrimaryKey t2 key label2 = .ok ())
    {k : Cell} (hk : k ∈ commonKeys t1 t2 key) :
    changesForId (keyedModified t1 t2 key) (idString k) =
      directChanges t1 t2 key k := by
  have hsel : ∀ k' ∈ commonKeys t1 t2 key, ∀ m : ModRecord,
      (fun k' => if (directChanges t1 t2 key k').isEmpty then none
        else some (⟨idString k', directChanges t1 t2 key k'⟩ : ModRecord)) k' =
        some m →
      (m.id == idString k) = true → k' = k := by
    intro k' hk' m hm hid
    dsimp only at hm
    split at hm
    · exact absurd hm (by simp)
    · have : m.id = idString k' := by rw [← Option.some.inj hm]
      rw [this] at hid
      have hkk : k' ∈ keysOf t1 key := (mem_commonKeys.mp hk').1
      have hkk2 : k ∈ keysOf t1 key := (mem_commonKeys.mp hk).1
      exact idString_inj (normCell_of_mem_keysOf h1 hkk)
        (normCell_of_mem_keysOf h1 hkk2)
        (keys_isSome_of_ok hv1 k' hkk) (keys_isSome_of_ok hv1 k hkk2)
        (by simpa using hid)
  unfold changesForId
  rw [keyedModified_eq_direct h1 h2 hc1 hkey,
    filter_filterMap_unique _ _ k (commonKeys t1 t2 key)
      (nodup_commonKeys t1 t2 key) hk hsel]
  by_cases he : (directChanges t1 t2 key k).isEmpty = true
  · rw [if_pos he]
    rw [List.isEmpty_iff] at he
    rw [he]
    rfl
  · rw [if_neg he]
    simp

theorem changesForIndex_eq_rowChanges {t1 t2 : Table} {i : Nat}
    (hi : i < min t1.rows.length t2.rows.length) :
    changesForIndex (posModified t1 t2) i =
      posRowChanges (commonCols t1 t2)
        (t1.rows.getD i []) (t2.rows.getD i []) := by
  have hsel : ∀ i' ∈ List.range (min t1.rows.length t2.rows.length),
      ∀ m : PosRecord,
      (fun i' =>
        if (posRowChanges (commonCols t1 t2)
            (t1.rows.getD i' []) (t2.rows.getD i' [])).isEmpty then none
        else some (⟨i', posRowChanges (commonCols t1 t2)
            (t1.rows.getD i' []) (t2.rows.getD i' [])⟩ : PosRecord)) i' =
        some m →
      (m.row_index == i) = true → i' = i := by
    intro i' _ m hm hid
    dsimp only at hm
    split at hm
    · exact absurd hm (by simp)
    · have : m.row_index = i' := by rw [← Option.some.inj hm]
      rw [this] at hid
      simpa using hid
  unfold changesForIndex posModified
  rw [filter_filterMap_unique _ _ i
      (List.range (min t1.rows.length t2.rows.length))
      (List.nodup_range _) (List.mem_range.mpr hi) hsel]
  by_cases he : (posRowChanges (commonCols t1 t2)
      (t1.rows.getD i []) (t2.rows.getD i [])).isEmpty = true
  · rw [if_pos he]
    rw [List.isEmpty_iff] at he
    rw [he]
    rfl
  · rw [if_neg he]
    simp


theorem filter_column_unique {cols : List String} (hnd : cols.Nodup)
    {c : String} (hc : c ∈ cols) (f : String → Option FieldChange)
    (hcol : ∀ c' ch, f c' = some ch → ch.column = c') :
    (cols.filterMap f).filter (fun ch => ch.column == c) =
      (f c).toList.filter (fun ch => ch.column == c) := by
  apply filter_filterMap_unique f _ c cols hnd hc
  intro c' _ ch hch hbeq
  rw [← hcol c' ch hch]
  simpa using hbeq

/-- **C5** counterexample: with no common column and `n2 > n1`, the
positional engine emits no added rows at all, while the claim predicts
row_index-carrying rows projected onto the (empty) common column set. -/
theorem positional_tail_counterexample :
    NormTable soloColA ∧ NormTable soloColB ∧
    soloColB.rows.length > soloColA.rows.length ∧
    posAdded soloColA soloColB ≠ specPosAdded soloColA soloColB := by
  refine ⟨by decide, by decide, by decide, by decide⟩

/-- **C5 (amended)**: provided at least one common column exists, the
positional tail behaviour is as specified (`n2 > n1` gives exactly the right
rows at positions `[n1, n2)` with their row indexes, and symmetrically);
with no common column the added and removed lists are empty; per-row
modified records carry exactly the §4.4 Field Changes, are shaped with
identifier `"Row {i}"`, and appear in increasing row order. -/
theorem positional_diff_characterization (t1 t2 : Table) :
    (commonCols t1 t2 ≠ [] → t2.rows.length > t1.rows.length →
      (∀ j, (posAdded t1 t2)[j]? = (t2.rows[t1.rows.length + j]?).map
          (fun r => (t1.rows.length + j,
            projectRow (commonCols t1 t2) r))) ∧
      posRemoved t1 t2 = []) ∧
    (commonCols t1 t2 ≠ [] → t1.rows.length > t2.rows.length →
      (∀ j, (posRemoved t1 t2)[j]? = (t1.rows[t2.rows.length + j]?).map
          (fun r => (t2.rows.length + j,
            projectRow (commonCols t1 t2) r))) ∧
      posAdded t1 t2 = []) ∧
    (t1.rows.length = t2.rows.length →
      posAdded t1 t2 = [] ∧ posRemoved t1 t2 = []) ∧
    (∀ i, i < min t1.rows.length t2.rows.length →
      ((∃ m ∈ posModified t1 t2, m.row_index = i) ↔
        ∃ c ∈ commonCols t1 t2,
          posCellSame (getCell (t1.rows.getD i []) c)
            (getCell (t2.rows.getD i []) c) = false) ∧
      (∀ m ∈ posModified t1 t2, m.row_index = i →
        m.changes = posRowChanges (commonCols t1 t2)
          (t1.rows.getD i []) (t2.rows.getD i []))) ∧
    ((getComparisonForFrontendByPosition t1 t2).modified_rows =
      (posModified t1 t2).map (fun m =>
        ⟨"Row " ++ toString m.row_index, m.row_index, m.changes⟩)) ∧
    (posModified t1 t2).Pairwise (fun m m' => m.row_index < m'.row_index) ∧
    (∀ m ∈ posModified t1 t2,
      m.row_index < min t1.rows.length t2.rows.length) := by
  refine ⟨?_, ?_, ?_, ?_, rfl, ?_, ?_⟩
  · intro hcom hgt
    constructor
    · intro j
      unfold posAdded
      rw [if_pos (by simp [hgt, List.isEmpty_iff, hcom])]
      rw [List.getElem?_map, List.getElem?_enumFrom, List.getElem?_drop,
        Option.map_map]
      rfl
    · unfold posRemoved
      rw [if_neg (by simp; omega)]
  · intro hcom hgt
    constructor
    · intro j
      unfold posRemoved
      rw [if_pos (by simp [hgt, List.isEmpty_iff, hcom])]
      rw [List.getElem?_map, List.getElem?_enumFrom, List.getElem?_drop,
        Option.map_map]
      rfl
    · unfold posAdded
      rw [if_neg (by simp; omega)]
  · intro heq
    constructor
    · unfold posAdded
      rw [if_neg (by simp; omega)]
    · unfold posRemoved
      rw [if_neg (by simp; omega)]
  · intro i hi
    constructor
    · constructor
      · rintro ⟨m, hm, hidx⟩
        unfold posModified at hm
        rcases List.mem_filterMap.mp hm with ⟨i', _, hf⟩
        dsimp only at hf
        split at hf
        · exact absurd hf (by simp)
        · rename_i hne
          have hm' : m = ⟨i', posRowChanges (commonCols t1 t2)
              (t1.rows.getD i' []) (t2.rows.getD i' [])⟩ := by
            rw [← Option.some.inj hf]
          have hii : i' = i := by rw [hm'] at hidx; exact hidx
          subst hii
          have : posRowChanges (commonCols t1 t2)
              (t1.rows.getD i' []) (t2.rows.getD i' []) ≠ [] := by
            intro hnil
            rw [hnil] at hne
            exact hne rfl
          rcases List.exists_mem_of_ne_nil _ this with ⟨ch, hch⟩
          unfold posRowChanges at hch
          rcases List.mem_filterMap.mp hch with ⟨c, hc, hg⟩
          dsimp only at hg
          split at hg
          · exact absurd hg (by simp)
          · rename_i hsame
            refine ⟨c, hc, ?_⟩
            cases hcase : posCellSame (getCell (t1.rows.getD i' []) c)
                (getCell (t2.rows.getD i' []) c)
            · rfl
            · exact absurd hcase hsame
      · rintro ⟨c, hc, hne⟩
        have hchm : (⟨c, (getCell (t1.rows.getD i []) c).map strip,
            (getCell (t2.rows.getD i []) c).map strip⟩ : FieldChange) ∈
            posRowChanges (commonCols t1 t2)
              (t1.rows.getD i []) (t2.rows.getD i []) := by
          unfold posRowChanges
          apply List.mem_filterMap.mpr
          refine ⟨c, hc, ?_⟩
          dsimp only
          rw [if_neg (by rw [hne]; simp)]
        have hnonnil : posRowChanges (commonCols t1 t2)
            (t1.rows.getD i []) (t2.rows.getD i []) ≠ [] := by
          intro hnil
          rw [hnil] at hchm
          exact absurd hchm (List.not_mem_nil _)
        refine ⟨⟨i, posRowChanges (commonCols t1 t2)
            (t1.rows.getD i []) (t2.rows.getD i [])⟩, ?_, rfl⟩
        unfold posModified
        apply List.mem_filterMap.mpr
        refine ⟨i, List.mem_range.mpr hi, ?_⟩
        dsimp only
        rw [if_neg (by simpa [List.isEmpty_iff] using hnonnil)]
    · intro m hm hidx
      unfold posModified at hm
      rcases List.mem_filterMap.mp hm with ⟨i', _, hf⟩
      dsimp only at hf
      split at hf
      · exact absurd hf (by simp)
      · have hm' : m = ⟨i', posRowChanges (commonCols t1 t2)
            (t1.rows.getD i' []) (t2.rows.getD i' [])⟩ := by
          rw [← Option.some.inj hf]
        have hii : i' = i := by rw [hm'] at hidx; exact hidx
        subst hii
        rw [hm']
  · unfold posModified
    apply pairwise_filterMap_of_pairwise _ ?_ (List.pairwise_lt_range _)
    intro a a' b b' hfa hfa' hlt
    dsimp only at hfa hfa'
    have hba : b.row_index = a := by
      split at hfa
      · exact absurd hfa (by simp)
      · rw [← Option.some.inj hfa]
    have hba' : b'.row_index = a' := by
      split at hfa'
      · exact absurd hfa' (by simp)
      · rw [← Option.some.inj hfa']
    rw [hba, hba']
    exact hlt
  · intro m hm
    unfold posModified at hm
    rcases List.mem_filterMap.mp hm with ⟨i', hi', hf⟩
    dsimp only at hf
    have hba : m.row_index = i' := by
      split at hf
      · exact absurd hf (by simp)
      · rw [← Option.some.inj hf]
    rw [hba]
    exact List.mem_range.mp hi'


theorem self_comparison_empty_witness :
    validatePrimaryKey sampleLeft "id" "file1" = .ok () ∧
    (keyedAdded sampleLeft sampleLeft "id" = [] ∧
     keyedRemoved sampleLeft sampleLeft "id" = [] ∧
     keyedModified sampleLeft sampleLeft "id" = []) :=
  ⟨rfl, (self_comparison_empty sampleLeft "id" "file1").2 rfl⟩

theorem positional_diff_characterization_witness :
    commonCols tailLeft tailRight ≠ [] ∧
    tailRight.rows.length > tailLeft.rows.length ∧
    posRemoved tailLeft tailRight = [] :=
  ⟨by decide, by decide,
    ((positional_diff_characterization tailLeft tailRight).1
      (by decide) (by decide)).2⟩

theorem validator_taxonomy_witness :
    validatePrimaryKey dupKeyTable "id" "tbl" =
      .error (.keyNotUnique "tbl" "id" [some "5", some "5"]) ∧
    (validatePrimaryKey dupKeyTable "id" "tbl" = .ok () ↔
      ("id" ∈ dupKeyTable.cols ∧
        (∀ r ∈ dupKeyTable.rows, (getCell r "id").isSome) ∧
        (keysOf dupKeyTable "id").Nodup)) :=
  ⟨rfl, (validator_taxonomy dupKeyTable "id" "tbl").2.2.2.2.2.2.2⟩

theorem keyed_validation_protocol_witness :
    validatePrimaryKey dupKeyTable "id" "file1" =
      .error (.keyNotUnique "file1" "id" [some "5", some "5"]) ∧
    runKeyedComparison dupKeyTable sampleRight "id" =
      .error (.keyNotUnique "file1" "id" [some "5", some "5"]) :=
  ⟨rfl, (keyed_validation_protocol dupKeyTable sampleRight "id").1
    (.keyNotUnique "file1" "id" [some "5", some "5"]) rfl⟩

theorem no_common_columns_no_tail_rows_witness :
    (∀ c, ¬ (c ∈ soloColA.cols ∧ c ∈ soloColB.cols)) ∧
    soloColB.rows.length > soloColA.rows.length ∧
    posAdded soloColA soloColB = [] := by
  have h : ∀ c, ¬ (c ∈ soloColA.cols ∧ c ∈ soloColB.cols) := by
    rintro c ⟨h1, h2⟩
    have e1 : c = "a" := by simpa [soloColA] using h1
    have e2 : c = "b" := by simpa [soloColB] using h2
    rw [e1] at e2
    exact absurd e2 (by decide)
  exact ⟨h, by decide, (no_common_columns_no_tail_rows soloColA soloColB h).1⟩

end ExcelCompare
